import Mathlib

/-!
Shallow embedding of the randomized binary search tree from
`src/Randomized Binary Search Tree/main.c`, together with proofs of the
structural properties of its insertion / rebuild algorithm.

Modelling conventions:
* C `TreeNode*` pointer structures become the inductive type `Tree`;
  a `NULL` pointer is `Tree.nil`.  The `size` field is stored verbatim in
  each node (it is *not* defined to be the node count; the size invariant
  is proved, not assumed).
* Machine `int` keys become `Int` (only comparisons are performed on keys,
  so overflow cannot occur).
* The two C random sources are modelled as oracle streams indexed by call
  counters: `coin : Nat → Bool` gives the outcome of the test
  `drand48() < 1.0/(size+1)` for the i-th `drand48` call, and
  `pick : Nat → Nat` gives the value of the i-th `rand()` call.  All
  structural theorems are quantified over every possible oracle, hence
  hold for every outcome of the randomness.
* The malloc'd scratch array of `reconstructRBST` becomes a `List Int`
  written with `List.set` (which, like an out-of-bounds C write, is
  modelled as having no effect out of range; in-boundedness is proved
  separately).  Its indeterminate initial contents are modelled as zeros;
  every slot is proved to be overwritten before being read.
* The C local `int newNodeIndex;` is uninitialized until `flattenRBST`
  assigns it; it is modelled as `Option Nat`, with `Option.getD 0`
  standing for the indeterminate value at the (proved unreachable) read
  of an unassigned variable.
* `nodesVisited`, and the ghost fields `path`, `rebuiltSize`, `writes`
  and `reads`, are instrumentation threaded through the state exactly as
  the C `int* nodesVisited` out-parameter is; the ghost fields record
  which nodes were descended through / which array cells were touched,
  and do not influence any computed tree.
-/

namespace RBST

/-- C struct `TreeNode`: key, subtree-size field, left and right child.
`Tree.nil` is the `NULL` pointer. -/
inductive Tree where
  | nil : Tree
  | node (key : Int) (size : Nat) (left right : Tree) : Tree
deriving DecidableEq

/-- Value of the `size` field of a node, with `NULL` read as 0 (the C code
guards each read of `child->size` by a `NULL` test). -/
def sizeField : Tree → Nat
  | .nil => 0
  | .node _ s _ _ => s

/-- Actual number of nodes of a tree (specification-side count). -/
def cnt : Tree → Nat
  | .nil => 0
  | .node _ _ l r => cnt l + cnt r + 1

/-- In-order key sequence of a tree (specification-side). -/
def inorder : Tree → List Int
  | .nil => []
  | .node k _ l r => inorder l ++ k :: inorder r

/-- The key of the root node, if any (specification-side). -/
def rootKey : Tree → Option Int
  | .nil => none
  | .node k _ _ _ => some k

/-- C function `height`. -/
def height : Tree → Nat
  | .nil => 0
  | .node _ _ l r => if height l > height r then height l + 1 else height r + 1

/-- The size invariant: every node's `size` field equals
`1 + size(left, default 0) + size(right, default 0)`. -/
def sizeOk : Tree → Bool
  | .nil => true
  | .node _ s l r => (s == 1 + sizeField l + sizeField r) && sizeOk l && sizeOk r

/-- The strict BST invariant stated by the specification: every key in a
left subtree is strictly below the node's key, every key in a right
subtree is greater than or equal to it. -/
def strictBST : Tree → Bool
  | .nil => true
  | .node k _ l r =>
      (inorder l).all (fun x => decide (x < k)) &&
      (inorder r).all (fun x => decide (k ≤ x)) &&
      strictBST l && strictBST r

/-- The weak BST invariant actually maintained by the code: every key in a
left subtree is `≤` the node's key, every key in a right subtree is `≥` it. -/
def weakBST : Tree → Bool
  | .nil => true
  | .node k _ l r =>
      (inorder l).all (fun x => decide (x ≤ k)) &&
      (inorder r).all (fun x => decide (k ≤ x)) &&
      weakBST l && weakBST r

/-- Read `arr[i]`; an out-of-range C read is undefined behaviour, modelled
by an arbitrary value (0).  In-boundedness of every read is proved. -/
def readArr (arr : List Int) (i : Int) : Int := arr.getD i.toNat 0

/-- State threaded through `flattenRBST`: the scratch array, the C locals
`curIndex`, `newNodeIndex` (uninitialized, hence `Option`), `isAdded` and
the `nodesVisited` out-parameter, plus the ghost log `writes` of array
indices written, in order. -/
structure FlatSt where
  arr : List Int
  curIndex : Nat
  newNodeIndex : Option Nat
  isAdded : Bool
  nodesVisited : Nat
  writes : List Nat
deriving DecidableEq

/-- C function `flattenRBST`: destructive in-order flatten of `t` into the
scratch array, inserting `newKey` at its in-order position (the `free` of
each visited node has no counterpart in a value model). -/
def flattenRBST (newKey : Int) (t : Tree) (arrLength : Nat) (st : FlatSt) : FlatSt :=
  match t with
  | .nil =>
      if st.isAdded = false ∧ st.curIndex = arrLength - 1 then
        { st with arr := st.arr.set st.curIndex newKey,
                  newNodeIndex := some st.curIndex,
                  curIndex := st.curIndex + 1,
                  writes := st.writes ++ [st.curIndex] }
      else st
  | .node ck _ l r =>
      let st1 := flattenRBST newKey l arrLength st
      let st2 :=
        if newKey < ck ∧ st1.isAdded = false then
          { st1 with arr := st1.arr.set st1.curIndex newKey,
                     newNodeIndex := some st1.curIndex,
                     curIndex := st1.curIndex + 1,
                     isAdded := true,
                     writes := st1.writes ++ [st1.curIndex] }
        else st1
      let st3 := { st2 with nodesVisited := st2.nodesVisited + 1,
                            arr := st2.arr.set st2.curIndex ck,
                            curIndex := st2.curIndex + 1,
                            writes := st2.writes ++ [st2.curIndex] }
      flattenRBST newKey r arrLength st3

/-- State threaded through `makeRBST`: the `rand()` call counter, the
`nodesVisited` out-parameter, and the ghost log `reads` of array indices
read. -/
structure MakeSt where
  rc : Nat
  nodesVisited : Nat
  reads : List Int
deriving DecidableEq

/-- C function `makeRBST`, specialized to `isAdded = true` (every
recursive call of the C function passes `isAdded = true`, so the flag is
compiled away by splitting the function in two): rebuild a subtree from
`arr[first..last]`, choosing each root uniformly via `rand()`. -/
def makeRBSTRand (pick : Nat → Nat) (arr : List Int) (first last : Int)
    (st : MakeSt) : Tree × MakeSt :=
  if h : last < first then (.nil, st)
  else
    let index : Int := first + (pick st.rc : Int) % (last - first + 1)
    let st1 : MakeSt := { rc := st.rc + 1, nodesVisited := st.nodesVisited + 1,
                          reads := st.reads ++ [index] }
    let p1 := makeRBSTRand pick arr first (index - 1) st1
    let p2 := makeRBSTRand pick arr (index + 1) last p1.2
    (.node (readArr arr index) (1 + sizeField p1.1 + sizeField p2.1) p1.1 p2.1, p2.2)
termination_by (last + 1 - first).toNat
decreasing_by
  · have h0 : (0:Int) ≤ (pick st.rc : Int) % (last - first + 1) :=
      Int.emod_nonneg _ (by omega)
    have h1 : (pick st.rc : Int) % (last - first + 1) < last - first + 1 :=
      Int.emod_lt_of_pos _ (by omega)
    omega
  · have h0 : (0:Int) ≤ (pick st.rc : Int) % (last - first + 1) :=
      Int.emod_nonneg _ (by omega)
    have h1 : (pick st.rc : Int) % (last - first + 1) < last - first + 1 :=
      Int.emod_lt_of_pos _ (by omega)
    omega

/-- C function `makeRBST`, specialized to `isAdded = false` (the shape of
the first call from `reconstructRBST`): the designated index `nn` is
forced to be the root, and both recursive calls proceed with
`isAdded = true`, i.e. `makeRBSTRand`. -/
def makeRBSTRoot (pick : Nat → Nat) (arr : List Int) (first last nn : Int)
    (st : MakeSt) : Tree × MakeSt :=
  if last < first then (.nil, st)
  else
    let st1 : MakeSt := { rc := st.rc, nodesVisited := st.nodesVisited + 1,
                          reads := st.reads ++ [nn] }
    let p1 := makeRBSTRand pick arr first (nn - 1) st1
    let p2 := makeRBSTRand pick arr (nn + 1) last p1.2
    (.node (readArr arr nn) (1 + sizeField p1.1 + sizeField p2.1) p1.1 p2.1, p2.2)

/-- State threaded through `insertRBSTHelper`: the `drand48` and `rand`
call counters, the `nodesVisited` out-parameter, and two ghost fields:
`path` records the keys of the existing nodes descended through (in
order, including the node at which a rebuild triggers) and `rebuiltSize`
records the `size` field of the subtree handed to `reconstructRBST`, if
the call triggered a rebuild. -/
structure InsSt where
  dc : Nat
  rc : Nat
  nodesVisited : Nat
  path : List Int
  rebuiltSize : Option Nat
deriving DecidableEq

/-- C function `reconstructRBST`: flatten the subtree plus the new key
into a freshly allocated array of `size + 1` cells, then rebuild with the
new key pinned at the root. -/
def reconstructRBST (pick : Nat → Nat) (t : Tree) (newKey : Int) (st : InsSt) :
    Tree × InsSt :=
  let arrLength := sizeField t + 1
  let fs := flattenRBST newKey t arrLength
    { arr := List.replicate arrLength 0, curIndex := 0, newNodeIndex := none,
      isAdded := false, nodesVisited := st.nodesVisited, writes := [] }
  let p := makeRBSTRoot pick fs.arr 0 ((arrLength : Int) - 1)
    ((fs.newNodeIndex.getD 0 : Nat) : Int)
    { rc := st.rc, nodesVisited := fs.nodesVisited, reads := [] }
  (p.1, { st with rc := p.2.rc, nodesVisited := p.2.nodesVisited })

/-- C function `insertRBSTHelper`.  The `drand48() < 1.0/(size+1)` test is
the oracle value `coin st.dc`. -/
def insertRBSTHelper (coin : Nat → Bool) (pick : Nat → Nat) (t : Tree)
    (newKey : Int) (st : InsSt) : Tree × InsSt :=
  match t with
  | .nil => (.node newKey 1 .nil .nil, st)
  | .node ck sz l r =>
      if coin st.dc then
        reconstructRBST pick (.node ck sz l r) newKey
          { st with dc := st.dc + 1, nodesVisited := st.nodesVisited + 1,
                    path := st.path ++ [ck], rebuiltSize := some sz }
      else if newKey < ck then
        let p := insertRBSTHelper coin pick l newKey
          { st with dc := st.dc + 1, nodesVisited := st.nodesVisited + 1,
                    path := st.path ++ [ck] }
        (.node ck (sz + 1) p.1 r, p.2)
      else
        let p := insertRBSTHelper coin pick r newKey
          { st with dc := st.dc + 1, nodesVisited := st.nodesVisited + 1,
                    path := st.path ++ [ck] }
        (.node ck (sz + 1) l p.1, p.2)

/-- C function `insertRBST` on a tree handle holding root `root`; `dc` and
`rc` are the process-wide random-call counters.  `nodesVisited` starts at
0 and is incremented once after `createNode` succeeds. -/
def insertRBST (coin : Nat → Bool) (pick : Nat → Nat) (root : Tree) (key : Int)
    (dc rc : Nat) : Tree × InsSt :=
  let st : InsSt := { dc := dc, rc := rc, nodesVisited := 1, path := [],
                      rebuiltSize := none }
  match root with
  | .nil => (.node key 1 .nil .nil, st)
  | t => insertRBSTHelper coin pick t key st

/-- C function `initRBST`: the `RBST` struct holds only the root pointer,
so a tree handle is modelled by its root. -/
def initRBST : Tree := Tree.nil

/-- Insert a list of keys in order into a fresh tree, threading the
process-wide random-call counters, as the C driver does with repeated
`insertRBST` calls. -/
def insertList (coin : Nat → Bool) (pick : Nat → Nat) (ks : List Int) :
    Tree × Nat × Nat :=
  ks.foldl (fun acc k =>
    let p := insertRBST coin pick acc.1 k acc.2.1 acc.2.2
    (p.1, p.2.dc, p.2.rc)) (initRBST, 0, 0)

/-- C function `freeRBSTHelper`: post-order teardown counting the freed
nodes through the `nodesVisited` out-parameter. -/
def freeRBSTHelper (t : Tree) (nodesVisited : Nat) : Nat :=
  match t with
  | .nil => nodesVisited
  | .node _ _ l r => freeRBSTHelper r (freeRBSTHelper l (nodesVisited + 1))

/-- C function `freeRBST`: frees the whole tree (and the handle) and
returns the number of nodes visited. -/
def freeRBST (root : Tree) : Nat := freeRBSTHelper root 0

/-! ### Specification-side helpers for the flatten step -/

/-- The segment `arr[first..last]` as a list (specification-side). -/
def seg (arr : List Int) (first last : Int) : List Int :=
  if last < first then [] else readArr arr first :: seg arr (first + 1) last
termination_by (last + 1 - first).toNat
decreasing_by omega

/-- The sequence of cells that one `flattenRBST` call writes (in order),
as a function of the in-order keys `l` of the flattened subtree, the
incoming `isAdded` flag, and the number `rRem` of keys the enclosing
traversal still has to write after this subtree. -/
def flatEmit (k : Int) (added : Bool) (rRem : Nat) (l : List Int) : List Int :=
  if added then l
  else if l.dropWhile (fun z => decide (z ≤ k)) = [] then
    if rRem = 0 then l ++ [k] else l
  else l.takeWhile (fun z => decide (z ≤ k)) ++ k :: l.dropWhile (fun z => decide (z ≤ k))

/-- The `isAdded` flag after one `flattenRBST` call (note: the
append-at-the-end branch of the C code does not set `isAdded`). -/
def flatAdded (k : Int) (added : Bool) (l : List Int) : Bool :=
  added || !(l.dropWhile (fun z => decide (z ≤ k))).isEmpty

/-- The `newNodeIndex` value after one `flattenRBST` call that started
with `curIndex = c`. -/
def flatIdx (k : Int) (added : Bool) (rRem : Nat) (l : List Int) (c : Nat)
    (old : Option Nat) : Option Nat :=
  if added then old
  else if l.dropWhile (fun z => decide (z ≤ k)) = [] then
    if rRem = 0 then some (c + l.length) else old
  else some (c + (l.takeWhile (fun z => decide (z ≤ k))).length)

/-! ### Basic lemmas -/

theorem length_inorder (t : Tree) : (inorder t).length = cnt t := by
  induction t with
  | nil => rfl
  | node k s l r ihl ihr => simp [inorder, cnt, ihl, ihr]; omega

theorem set_concat (w : List Int) (j : Int) (js : List Int) (v : Int) :
    (w ++ j :: js).set w.length v = w ++ v :: js := by
  induction w with
  | nil => rfl
  | cons x xs ih => simp [List.set, ih]

theorem dropWhile_append_of_eq_nil {p : Int → Bool} {l : List Int}
    (h : l.dropWhile p = []) (l₂ : List Int) :
    (l ++ l₂).dropWhile p = l₂.dropWhile p := by
  induction l with
  | nil => rfl
  | cons x xs ih =>
      by_cases hx : p x
      · simp only [List.dropWhile_cons, hx, if_true] at h ⊢
        simp only [List.cons_append, List.dropWhile_cons, hx, if_true]
        exact ih h
      · simp [List.dropWhile_cons, hx] at h

theorem takeWhile_append_of_eq_nil {p : Int → Bool} {l : List Int}
    (h : l.dropWhile p = []) (l₂ : List Int) :
    (l ++ l₂).takeWhile p = l ++ l₂.takeWhile p := by
  induction l with
  | nil => rfl
  | cons x xs ih =>
      by_cases hx : p x
      · simp only [List.dropWhile_cons, hx, if_true] at h
        simp only [List.cons_append, List.takeWhile_cons, hx, if_true, ih h]
      · simp [List.dropWhile_cons, hx] at h

theorem dropWhile_append_of_ne_nil {p : Int → Bool} {l : List Int}
    (h : l.dropWhile p ≠ []) (l₂ : List Int) :
    (l ++ l₂).dropWhile p = l.dropWhile p ++ l₂ := by
  induction l with
  | nil => simp at h
  | cons x xs ih =>
      by_cases hx : p x
      · simp only [List.dropWhile_cons, hx, if_true] at h ⊢
        simp only [List.cons_append, List.dropWhile_cons, hx, if_true]
        exact ih h
      · simp [List.cons_append, List.dropWhile_cons, hx]

theorem takeWhile_append_of_ne_nil {p : Int → Bool} {l : List Int}
    (h : l.dropWhile p ≠ []) (l₂ : List Int) :
    (l ++ l₂).takeWhile p = l.takeWhile p := by
  induction l with
  | nil => simp at h
  | cons x xs ih =>
      by_cases hx : p x
      · simp only [List.dropWhile_cons, hx, if_true] at h
        simp only [List.cons_append, List.takeWhile_cons, hx, if_true, ih h]
      · simp [List.cons_append, List.takeWhile_cons, hx]

theorem takeWhile_length_add_dropWhile_length (p : Int → Bool) (l : List Int) :
    (l.takeWhile p).length + (l.dropWhile p).length = l.length := by
  rw [← List.length_append, List.takeWhile_append_dropWhile]

theorem range'_snoc (a n : Nat) :
    List.range' a n ++ [a + n] = List.range' a (n + 1) := by
  have := List.range'_append a n 1 1
  simpa [Nat.add_comm] using this

theorem range'_glue (a n m : Nat) :
    List.range' a n ++ List.range' (a + n) m = List.range' a (n + m) := by
  have := List.range'_append a n m 1
  simpa [Nat.add_comm] using this

theorem takeWhile_of_dropWhile_eq_nil {p : Int → Bool} {l : List Int}
    (h : l.dropWhile p = []) : l.takeWhile p = l := by
  have := List.takeWhile_append_dropWhile p l
  rw [h] at this
  simpa using this

/-! ### Computation rules for the flatten helpers on `l₁ ++ ck :: l₂` -/

theorem flatEmit_true (k : Int) (rRem : Nat) (l : List Int) :
    flatEmit k true rRem l = l := by simp [flatEmit]

theorem flatAdded_true (k : Int) (l : List Int) :
    flatAdded k true l = true := by simp [flatAdded]

theorem flatIdx_true (k : Int) (rRem : Nat) (l : List Int) (c : Nat)
    (old : Option Nat) : flatIdx k true rRem l c old = old := by simp [flatIdx]

theorem flatEmit_mid {k : Int} {l₁ : List Int}
    (h : l₁.dropWhile (fun z => decide (z ≤ k)) ≠ []) (ck : Int)
    (rRem : Nat) (l₂ : List Int) :
    flatEmit k false rRem (l₁ ++ ck :: l₂) =
      l₁.takeWhile (fun z => decide (z ≤ k)) ++
        k :: (l₁.dropWhile (fun z => decide (z ≤ k)) ++ ck :: l₂) := by
  unfold flatEmit
  rw [dropWhile_append_of_ne_nil h, takeWhile_append_of_ne_nil h]
  simp [h]

theorem flatAdded_mid {k : Int} {l₁ : List Int}
    (h : l₁.dropWhile (fun z => decide (z ≤ k)) ≠ []) (ck : Int) (l₂ : List Int) :
    flatAdded k false (l₁ ++ ck :: l₂) = true := by
  unfold flatAdded
  rw [dropWhile_append_of_ne_nil h]
  simp [h]

theorem flatIdx_mid {k : Int} {l₁ : List Int}
    (h : l₁.dropWhile (fun z => decide (z ≤ k)) ≠ []) (ck : Int)
    (rRem : Nat) (l₂ : List Int) (c : Nat) (old : Option Nat) :
    flatIdx k false rRem (l₁ ++ ck :: l₂) c old =
      some (c + (l₁.takeWhile (fun z => decide (z ≤ k))).length) := by
  unfold flatIdx
  rw [dropWhile_append_of_ne_nil h, takeWhile_append_of_ne_nil h]
  simp [h]

theorem flatEmit_pivot {k : Int} {l₁ : List Int}
    (h : l₁.dropWhile (fun z => decide (z ≤ k)) = []) {ck : Int} (hck : k < ck)
    (rRem : Nat) (l₂ : List Int) :
    flatEmit k false rRem (l₁ ++ ck :: l₂) = l₁ ++ k :: ck :: l₂ := by
  unfold flatEmit
  rw [dropWhile_append_of_eq_nil h, takeWhile_append_of_eq_nil h]
  have hpck : decide (ck ≤ k) = false := by simp; omega
  simp [List.dropWhile_cons, List.takeWhile_cons, hpck,
        takeWhile_of_dropWhile_eq_nil h]

theorem flatAdded_pivot {k : Int} {l₁ : List Int}
    (h : l₁.dropWhile (fun z => decide (z ≤ k)) = []) {ck : Int} (hck : k < ck)
    (l₂ : List Int) :
    flatAdded k false (l₁ ++ ck :: l₂) = true := by
  unfold flatAdded
  rw [dropWhile_append_of_eq_nil h]
  have hpck : decide (ck ≤ k) = false := by simp; omega
  simp [List.dropWhile_cons, hpck]

theorem flatIdx_pivot {k : Int} {l₁ : List Int}
    (h : l₁.dropWhile (fun z => decide (z ≤ k)) = []) {ck : Int} (hck : k < ck)
    (rRem : Nat) (l₂ : List Int) (c : Nat) (old : Option Nat) :
    flatIdx k false rRem (l₁ ++ ck :: l₂) c old = some (c + l₁.length) := by
  unfold flatIdx
  rw [dropWhile_append_of_eq_nil h, takeWhile_append_of_eq_nil h]
  have hpck : decide (ck ≤ k) = false := by simp; omega
  simp [List.dropWhile_cons, List.takeWhile_cons, hpck,
        takeWhile_of_dropWhile_eq_nil h]

theorem flatEmit_skip {k : Int} {l₁ : List Int}
    (h : l₁.dropWhile (fun z => decide (z ≤ k)) = []) {ck : Int} (hck : ck ≤ k)
    (rRem : Nat) (l₂ : List Int) :
    flatEmit k false rRem (l₁ ++ ck :: l₂) = l₁ ++ ck :: flatEmit k false rRem l₂ := by
  unfold flatEmit
  rw [dropWhile_append_of_eq_nil h, takeWhile_append_of_eq_nil h]
  have hpck : decide (ck ≤ k) = true := by simpa using hck
  simp only [List.dropWhile_cons, List.takeWhile_cons, hpck, if_true, if_false,
    Bool.false_eq_true]
  by_cases h2 : l₂.dropWhile (fun z => decide (z ≤ k)) = []
  · by_cases hr : rRem = 0 <;>
      simp [h2, hr, takeWhile_of_dropWhile_eq_nil h]
  · simp [h2, takeWhile_of_dropWhile_eq_nil h]

theorem flatAdded_skip {k : Int} {l₁ : List Int}
    (h : l₁.dropWhile (fun z => decide (z ≤ k)) = []) {ck : Int} (hck : ck ≤ k)
    (l₂ : List Int) :
    flatAdded k false (l₁ ++ ck :: l₂) = flatAdded k false l₂ := by
  unfold flatAdded
  rw [dropWhile_append_of_eq_nil h]
  have hpck : decide (ck ≤ k) = true := by simpa using hck
  simp [List.dropWhile_cons, hpck]

theorem flatEmit_of_ne {k : Int} {l : List Int}
    (h : l.dropWhile (fun z => decide (z ≤ k)) ≠ []) (rRem : Nat) :
    flatEmit k false rRem l =
      l.takeWhile (fun z => decide (z ≤ k)) ++
        k :: l.dropWhile (fun z => decide (z ≤ k)) := by
  unfold flatEmit; simp [h]

theorem flatAdded_of_ne {k : Int} {l : List Int}
    (h : l.dropWhile (fun z => decide (z ≤ k)) ≠ []) :
    flatAdded k false l = true := by
  unfold flatAdded; simp [h]

theorem flatIdx_of_ne {k : Int} {l : List Int}
    (h : l.dropWhile (fun z => decide (z ≤ k)) ≠ []) (rRem : Nat) (c : Nat)
    (old : Option Nat) :
    flatIdx k false rRem l c old =
      some (c + (l.takeWhile (fun z => decide (z ≤ k))).length) := by
  unfold flatIdx; simp [h]

theorem flatEmit_of_nil_pos {k : Int} {l : List Int}
    (h : l.dropWhile (fun z => decide (z ≤ k)) = []) {rRem : Nat} (hr : rRem ≠ 0) :
    flatEmit k false rRem l = l := by
  unfold flatEmit; simp [h, hr]

theorem flatAdded_of_nil {k : Int} {l : List Int}
    (h : l.dropWhile (fun z => decide (z ≤ k)) = []) :
    flatAdded k false l = false := by
  unfold flatAdded; simp [h]

theorem flatIdx_of_nil_pos {k : Int} {l : List Int}
    (h : l.dropWhile (fun z => decide (z ≤ k)) = []) {rRem : Nat} (hr : rRem ≠ 0)
    (c : Nat) (old : Option Nat) :
    flatIdx k false rRem l c old = old := by
  unfold flatIdx; simp [h, hr]

theorem flatIdx_skip {k : Int} {l₁ : List Int}
    (h : l₁.dropWhile (fun z => decide (z ≤ k)) = []) {ck : Int} (hck : ck ≤ k)
    (rRem : Nat) (l₂ : List Int) (c : Nat) (old : Option Nat) :
    flatIdx k false rRem (l₁ ++ ck :: l₂) c old =
      flatIdx k false rRem l₂ (c + l₁.length + 1) old := by
  unfold flatIdx
  rw [dropWhile_append_of_eq_nil h, takeWhile_append_of_eq_nil h]
  have hpck : decide (ck ≤ k) = true := by simpa using hck
  simp only [List.dropWhile_cons, List.takeWhile_cons, hpck, if_true, if_false,
    Bool.false_eq_true]
  by_cases h2 : l₂.dropWhile (fun z => decide (z ≤ k)) = []
  · by_cases hr : rRem = 0 <;>
      simp [h2, hr, takeWhile_of_dropWhile_eq_nil h] <;> omega
  · simp [h2, takeWhile_of_dropWhile_eq_nil h]; omega

theorem range'_mid (c n m : Nat) :
    (List.range' c n ++ [c + n]) ++ List.range' (c + n + 1) m =
      List.range' c (n + 1 + m) := by
  rw [range'_snoc]
  have := range'_glue c (n + 1) m
  have hc : c + (n + 1) = c + n + 1 := by omega
  rw [hc] at this
  exact this

theorem range'_mid' (c n m : Nat) :
    List.range' c n ++ (c + n) :: List.range' (c + n + 1) m = List.range' c (n + 1 + m) := by
  have := range'_mid c n m
  simpa using this

theorem range'_snoc_cons (c n : Nat) (rest : List Nat) :
    List.range' c n ++ (c + n) :: rest = List.range' c (n + 1) ++ rest := by
  rw [← range'_snoc]
  simp

/-! ### The main characterization of `flattenRBST`

One call on a subtree `t`, starting from a state whose array splits as a
fully-written prefix `w` and a not-yet-written suffix `junk`, appends
exactly `flatEmit k isAdded rRem (inorder t)` to the written prefix,
where `rRem` is the number of keys the enclosing traversal still has to
write after `t`.  All other state components evolve accordingly. -/

theorem flattenRBST_spec (k : Int) (L : Nat) :
    ∀ (t : Tree) (st : FlatSt) (w junk : List Int) (rRem : Nat),
      st.arr = w ++ junk →
      st.curIndex = w.length →
      w.length + cnt t + rRem + 1 = L + (if st.isAdded then 1 else 0) →
      w.length + junk.length = L →
      flattenRBST k t L st =
        { arr := w ++ flatEmit k st.isAdded rRem (inorder t) ++
                   junk.drop (flatEmit k st.isAdded rRem (inorder t)).length,
          curIndex := w.length + (flatEmit k st.isAdded rRem (inorder t)).length,
          newNodeIndex := flatIdx k st.isAdded rRem (inorder t) w.length st.newNodeIndex,
          isAdded := flatAdded k st.isAdded (inorder t),
          nodesVisited := st.nodesVisited + cnt t,
          writes := st.writes ++
            List.range' w.length (flatEmit k st.isAdded rRem (inorder t)).length } := by
  intro t
  induction t with
  | nil =>
    intro st w junk rRem harr hcur h1 h2
    obtain ⟨sarr, scI, snn, sadded, sv, sws⟩ := st
    simp only at harr hcur h1 ⊢
    subst harr hcur
    cases sadded with
    | true =>
      simp only [flattenRBST, inorder, cnt]
      rw [if_neg (by simp)]
      simp [flatEmit_true, flatAdded_true, flatIdx_true]
    | false =>
      simp only [cnt] at h1
      simp at h1
      by_cases hr : rRem = 0
      · subst hr
        obtain ⟨j, js, hjs⟩ : ∃ j js, junk = j :: js := by
          cases junk with
          | nil => simp at h2; omega
          | cons j js => exact ⟨j, js, rfl⟩
        subst hjs
        simp only [flattenRBST, inorder]
        rw [if_pos (by simp; omega)]
        have hset : (w ++ j :: js).set w.length k = w ++ k :: js := set_concat w j js k
        simp [flatEmit, flatAdded, flatIdx, cnt, hset]
      · have he : flatEmit k false rRem ([] : List Int) = [] := by
          unfold flatEmit; simp [hr]
        have ha : flatAdded k false ([] : List Int) = false := by
          unfold flatAdded; simp
        have hi : flatIdx k false rRem ([] : List Int) w.length snn = snn := by
          unfold flatIdx; simp [hr]
        simp only [flattenRBST, inorder]
        rw [if_neg (by simp; omega)]
        simp [he, ha, hi, cnt]
  | node ck sz l r ihl ihr =>
    intro st w junk rRem harr hcur h1 h2
    obtain ⟨sarr, scI, snn, sadded, sv, sws⟩ := st
    simp only at harr hcur h1 ⊢
    subst harr hcur
    have hll := length_inorder l
    have hlr := length_inorder r
    simp only [cnt] at h1
    simp only [flattenRBST, inorder]
    cases sadded with
    | true =>
      simp at h1
      rw [ihl ⟨w ++ junk, w.length, snn, true, sv, sws⟩ w junk (rRem + cnt r + 1)
        rfl rfl (by simp; omega) h2]
      simp only [flatEmit_true, flatAdded_true, flatIdx_true]
      rw [if_neg (by simp)]
      obtain ⟨j, js, hjs⟩ : ∃ j js, junk.drop (inorder l).length = j :: js := by
        have hlen : (junk.drop (inorder l).length).length =
            junk.length - (inorder l).length := by simp
        cases hd : junk.drop (inorder l).length with
        | nil => rw [hd] at hlen; simp at hlen; omega
        | cons j js => exact ⟨j, js, rfl⟩
      have hA : (w ++ inorder l ++ junk.drop (inorder l).length).set
          (w.length + (inorder l).length) ck = (w ++ inorder l ++ [ck]) ++ js := by
        rw [hjs]
        have h5 : (w ++ inorder l).length = w.length + (inorder l).length := by simp
        rw [← h5, set_concat]
        simp
      have hjsl : js.length + ((inorder l).length + 1) = junk.length := by
        have := congrArg List.length hjs
        simp at this
        omega
      rw [ihr ⟨(w ++ inorder l ++ junk.drop (inorder l).length).set
            (w.length + (inorder l).length) ck,
            w.length + (inorder l).length + 1, snn, true, sv + cnt l + 1,
            (sws ++ List.range' w.length (inorder l).length) ++
              [w.length + (inorder l).length]⟩
          (w ++ inorder l ++ [ck]) js rRem hA (by simp [Nat.add_assoc])
          (by simp; omega) (by simp; omega)]
      simp only [flatEmit_true, flatAdded_true, flatIdx_true]
      have hjs2 : junk.drop ((inorder l ++ ck :: inorder r).length) =
          js.drop (inorder r).length := by
        have h6 : (inorder l ++ ck :: inorder r).length =
            (inorder l).length + 1 + (inorder r).length := by simp; omega
        rw [h6, ← List.drop_drop, ← List.drop_drop, hjs]
        simp
      simp only [FlatSt.mk.injEq]
      refine ⟨?_, by simp only [List.length_append, List.length_cons, List.length_nil] <;> omega,
        trivial, trivial, by simp only [cnt]; omega, ?_⟩
      · rw [hjs2]
        simp [List.append_assoc]
      · have h7 : (w ++ inorder l ++ [ck]).length = w.length + (inorder l).length + 1 := by
          simp only [List.length_append, List.length_cons, List.length_nil] <;> omega
        rw [h7]
        have h8 : (inorder l ++ ck :: inorder r).length =
            (inorder l).length + 1 + (inorder r).length := by
          simp only [List.length_append, List.length_cons, List.length_nil] <;> omega
        rw [h8]
        simp only [List.append_assoc, List.cons_append, List.nil_append, List.singleton_append]
        rw [range'_mid']
    | false =>
      simp at h1
      rw [ihl ⟨w ++ junk, w.length, snn, false, sv, sws⟩ w junk (rRem + cnt r + 1)
        rfl rfl (by simp; omega) h2]
      by_cases hdw : (inorder l).dropWhile (fun z => decide (z ≤ k)) = []
      · -- the new key is not inserted inside the left subtree
        simp only [flatEmit_of_nil_pos hdw (by omega : rRem + cnt r + 1 ≠ 0),
          flatAdded_of_nil hdw,
          flatIdx_of_nil_pos hdw (by omega : rRem + cnt r + 1 ≠ 0)]
        obtain ⟨j, js, hjs⟩ : ∃ j js, junk.drop (inorder l).length = j :: js := by
          have hlen : (junk.drop (inorder l).length).length =
              junk.length - (inorder l).length := by simp
          cases hd : junk.drop (inorder l).length with
          | nil => rw [hd] at hlen; simp at hlen; omega
          | cons j js => exact ⟨j, js, rfl⟩
        have hjsl : js.length + ((inorder l).length + 1) = junk.length := by
          have := congrArg List.length hjs
          simp at this
          omega
        have hjs2 : ∀ m, junk.drop ((inorder l).length + 1 + m) = js.drop m := by
          intro m
          rw [← List.drop_drop, ← List.drop_drop, hjs]
          simp
        by_cases hk : k < ck
        · -- B2a: the new key goes right before ck
          rw [if_pos ⟨hk, trivial⟩]
          have hA : (w ++ inorder l ++ junk.drop (inorder l).length).set
              (w.length + (inorder l).length) k = (w ++ inorder l ++ [k]) ++ js := by
            rw [hjs]
            have h5 : (w ++ inorder l).length = w.length + (inorder l).length := by simp
            rw [← h5, set_concat]
            simp
          rw [hA]
          obtain ⟨j2, js2, hjs3⟩ : ∃ j2 js2, js = j2 :: js2 := by
            cases js with
            | nil => exfalso; simp at hjsl; omega
            | cons j2 js2 => exact ⟨j2, js2, rfl⟩
          have hjs3l : js.length = js2.length + 1 := by rw [hjs3]; simp
          have hB : ((w ++ inorder l ++ [k]) ++ js).set
              (w.length + (inorder l).length + 1) ck =
              ((w ++ inorder l ++ [k]) ++ [ck]) ++ js2 := by
            rw [hjs3]
            have h5 : (w ++ inorder l ++ [k]).length =
                w.length + (inorder l).length + 1 := by
              simp only [List.length_append, List.length_cons, List.length_nil] <;> omega
            rw [← h5, set_concat]
            simp
          rw [hB]
          rw [ihr ⟨((w ++ inorder l ++ [k]) ++ [ck]) ++ js2,
                w.length + (inorder l).length + 1 + 1,
                some (w.length + (inorder l).length), true, sv + cnt l + 1,
                ((sws ++ List.range' w.length (inorder l).length) ++
                  [w.length + (inorder l).length]) ++
                  [w.length + (inorder l).length + 1]⟩
              ((w ++ inorder l ++ [k]) ++ [ck]) js2 rRem rfl
              (by simp only [List.length_append, List.length_cons, List.length_nil] <;> omega)
              (by simp <;> omega)
              (by simp only [List.length_append, List.length_cons, List.length_nil] <;> omega)]
          simp only [flatEmit_true, flatAdded_true, flatIdx_true]
          simp only [flatEmit_pivot hdw hk, flatAdded_pivot hdw hk,
            flatIdx_pivot hdw hk, FlatSt.mk.injEq]
          have hjs4 : junk.drop ((inorder l ++ k :: ck :: inorder r).length) =
              js2.drop (inorder r).length := by
            have h6 : (inorder l ++ k :: ck :: inorder r).length =
                (inorder l).length + 1 + 1 + (inorder r).length := by
              simp only [List.length_append, List.length_cons, List.length_nil] <;> omega
            rw [h6, ← List.drop_drop, ← List.drop_drop, ← List.drop_drop, hjs]
            simp [hjs3]
          refine ⟨?_,
            by simp only [List.length_append, List.length_cons, List.length_nil] <;> omega,
            trivial, trivial, by simp only [cnt] <;> omega, ?_⟩
          · rw [hjs4]
            simp [List.append_assoc]
          · rw [show ((w ++ inorder l ++ [k]) ++ [ck]).length =
                w.length + ((inorder l).length + 1 + 1) from by
              simp only [List.length_append, List.length_cons, List.length_nil] <;> omega]
            rw [show (inorder l ++ k :: ck :: inorder r).length =
                (inorder l).length + 1 + 1 + (inorder r).length from by
              simp only [List.length_append, List.length_cons, List.length_nil] <;> omega]
            simp only [List.append_assoc, List.cons_append, List.nil_append, List.singleton_append]
            rw [range'_snoc_cons]
            rw [show w.length + (inorder l).length + 1 =
                w.length + ((inorder l).length + 1) from by omega]
            rw [range'_snoc_cons]
            rw [range'_glue]
        · -- B2b: ck is written, the flag stays false, continue to the right
          rw [if_neg (fun hcon => hk hcon.1)]
          have hA : (w ++ inorder l ++ junk.drop (inorder l).length).set
              (w.length + (inorder l).length) ck = (w ++ inorder l ++ [ck]) ++ js := by
            rw [hjs]
            have h5 : (w ++ inorder l).length = w.length + (inorder l).length := by simp
            rw [← h5, set_concat]
            simp
          have hck : ck ≤ k := by omega
          rw [ihr ⟨(w ++ inorder l ++ junk.drop (inorder l).length).set
                (w.length + (inorder l).length) ck,
                w.length + (inorder l).length + 1, snn, false, sv + cnt l + 1,
                (sws ++ List.range' w.length (inorder l).length) ++
                  [w.length + (inorder l).length]⟩
              (w ++ inorder l ++ [ck]) js rRem hA
              (by simp only [List.length_append, List.length_cons, List.length_nil] <;> omega)
              (by simp <;> omega)
              (by simp only [List.length_append, List.length_cons, List.length_nil] <;> omega)]
          simp only [flatEmit_skip hdw hck, flatAdded_skip hdw hck,
            flatIdx_skip hdw hck, FlatSt.mk.injEq]
          refine ⟨?_,
            by simp only [List.length_append, List.length_cons, List.length_nil] <;> omega,
            ?_, trivial, by simp only [cnt] <;> omega, ?_⟩
          · rw [show (inorder l ++ ck :: flatEmit k false rRem (inorder r)).length =
                (inorder l).length + 1 + (flatEmit k false rRem (inorder r)).length from by
              simp only [List.length_append, List.length_cons, List.length_nil] <;> omega]
            rw [hjs2]
            simp [List.append_assoc]
          · rw [show (w ++ inorder l ++ [ck]).length =
                w.length + (inorder l).length + 1 from by
              simp only [List.length_append, List.length_cons, List.length_nil] <;> omega]
          · rw [show (w ++ inorder l ++ [ck]).length =
                w.length + (inorder l).length + 1 from by
              simp only [List.length_append, List.length_cons, List.length_nil] <;> omega]
            rw [show (inorder l ++ ck :: flatEmit k false rRem (inorder r)).length =
                (inorder l).length + 1 + (flatEmit k false rRem (inorder r)).length from by
              simp only [List.length_append, List.length_cons, List.length_nil] <;> omega]
            simp only [List.append_assoc, List.cons_append, List.nil_append, List.singleton_append]
            rw [range'_mid']
      · -- B1: the new key was inserted somewhere inside the left subtree
        simp only [flatEmit_of_ne hdw, flatAdded_of_ne hdw, flatIdx_of_ne hdw]
        rw [if_neg (by simp)]
        have htwdw := takeWhile_length_add_dropWhile_length
          (fun z => decide (z ≤ k)) (inorder l)
        obtain ⟨j, js, hjs⟩ : ∃ j js,
            junk.drop ((inorder l).takeWhile (fun z => decide (z ≤ k)) ++
              k :: (inorder l).dropWhile (fun z => decide (z ≤ k))).length = j :: js := by
          have hlen : (junk.drop ((inorder l).takeWhile (fun z => decide (z ≤ k)) ++
              k :: (inorder l).dropWhile (fun z => decide (z ≤ k))).length).length =
              junk.length - ((inorder l).takeWhile (fun z => decide (z ≤ k)) ++
                k :: (inorder l).dropWhile (fun z => decide (z ≤ k))).length := by simp
          cases hd : junk.drop ((inorder l).takeWhile (fun z => decide (z ≤ k)) ++
              k :: (inorder l).dropWhile (fun z => decide (z ≤ k))).length with
          | nil =>
              rw [hd] at hlen
              simp only [List.length_append, List.length_cons, List.length_nil] at hlen
              omega
          | cons j js => exact ⟨j, js, rfl⟩
        have hjsl : js.length + ((inorder l).takeWhile (fun z => decide (z ≤ k))).length +
            ((inorder l).dropWhile (fun z => decide (z ≤ k))).length + 2 = junk.length := by
          have := congrArg List.length hjs
          simp only [List.length_drop, List.length_cons, List.length_append,
            List.length_nil] at this
          omega
        have hA : (w ++ ((inorder l).takeWhile (fun z => decide (z ≤ k)) ++
            k :: (inorder l).dropWhile (fun z => decide (z ≤ k))) ++
            junk.drop ((inorder l).takeWhile (fun z => decide (z ≤ k)) ++
              k :: (inorder l).dropWhile (fun z => decide (z ≤ k))).length).set
            (w.length + ((inorder l).takeWhile (fun z => decide (z ≤ k)) ++
              k :: (inorder l).dropWhile (fun z => decide (z ≤ k))).length) ck =
            (w ++ ((inorder l).takeWhile (fun z => decide (z ≤ k)) ++
              k :: (inorder l).dropWhile (fun z => decide (z ≤ k))) ++ [ck]) ++ js := by
          rw [hjs]
          have h5 : (w ++ ((inorder l).takeWhile (fun z => decide (z ≤ k)) ++
              k :: (inorder l).dropWhile (fun z => decide (z ≤ k)))).length =
              w.length + ((inorder l).takeWhile (fun z => decide (z ≤ k)) ++
                k :: (inorder l).dropWhile (fun z => decide (z ≤ k))).length := by simp
          rw [← h5, set_concat]
          simp
        rw [ihr ⟨(w ++ ((inorder l).takeWhile (fun z => decide (z ≤ k)) ++
              k :: (inorder l).dropWhile (fun z => decide (z ≤ k))) ++
              junk.drop ((inorder l).takeWhile (fun z => decide (z ≤ k)) ++
                k :: (inorder l).dropWhile (fun z => decide (z ≤ k))).length).set
              (w.length + ((inorder l).takeWhile (fun z => decide (z ≤ k)) ++
                k :: (inorder l).dropWhile (fun z => decide (z ≤ k))).length) ck,
              w.length + ((inorder l).takeWhile (fun z => decide (z ≤ k)) ++
                k :: (inorder l).dropWhile (fun z => decide (z ≤ k))).length + 1,
              some (w.length + ((inorder l).takeWhile (fun z => decide (z ≤ k))).length),
              true, sv + cnt l + 1,
              (sws ++ List.range' w.length ((inorder l).takeWhile (fun z => decide (z ≤ k)) ++
                k :: (inorder l).dropWhile (fun z => decide (z ≤ k))).length) ++
                [w.length + ((inorder l).takeWhile (fun z => decide (z ≤ k)) ++
                  k :: (inorder l).dropWhile (fun z => decide (z ≤ k))).length]⟩
            (w ++ ((inorder l).takeWhile (fun z => decide (z ≤ k)) ++
              k :: (inorder l).dropWhile (fun z => decide (z ≤ k))) ++ [ck]) js rRem hA
            (by simp only [List.length_append, List.length_cons, List.length_nil] <;> omega)
            (by rw [if_pos rfl]
                simp only [List.length_append, List.length_cons, List.length_nil] <;> omega)
            (by simp only [List.length_append, List.length_cons, List.length_nil] <;> omega)]
        simp only [flatEmit_true, flatAdded_true, flatIdx_true]
        simp only [flatEmit_mid hdw, flatAdded_mid hdw, flatIdx_mid hdw, FlatSt.mk.injEq]
        have hjs4 : junk.drop (((inorder l).takeWhile (fun z => decide (z ≤ k)) ++
            k :: ((inorder l).dropWhile (fun z => decide (z ≤ k)) ++
              ck :: inorder r)).length) = js.drop (inorder r).length := by
          have h6 : ((inorder l).takeWhile (fun z => decide (z ≤ k)) ++
              k :: ((inorder l).dropWhile (fun z => decide (z ≤ k)) ++
                ck :: inorder r)).length =
              ((inorder l).takeWhile (fun z => decide (z ≤ k)) ++
                k :: (inorder l).dropWhile (fun z => decide (z ≤ k))).length + 1 +
                (inorder r).length := by
            simp only [List.length_append, List.length_cons, List.length_nil] <;> omega
          rw [h6, ← List.drop_drop, ← List.drop_drop, hjs]
          simp
        refine ⟨?_,
          by simp only [List.length_append, List.length_cons, List.length_nil] <;> omega,
          ?_, trivial, by simp only [cnt] <;> omega, ?_⟩
        · rw [hjs4]
          simp [List.append_assoc]
        · simp
        · rw [show (w ++ ((inorder l).takeWhile (fun z => decide (z ≤ k)) ++
              k :: (inorder l).dropWhile (fun z => decide (z ≤ k))) ++ [ck]).length =
              w.length + ((inorder l).takeWhile (fun z => decide (z ≤ k)) ++
                k :: (inorder l).dropWhile (fun z => decide (z ≤ k))).length + 1 from by
            simp only [List.length_append, List.length_cons, List.length_nil] <;> omega]
          rw [show ((inorder l).takeWhile (fun z => decide (z ≤ k)) ++
              k :: ((inorder l).dropWhile (fun z => decide (z ≤ k)) ++
                ck :: inorder r)).length =
              ((inorder l).takeWhile (fun z => decide (z ≤ k)) ++
                k :: (inorder l).dropWhile (fun z => decide (z ≤ k))).length + 1 +
                (inorder r).length from by
            simp only [List.length_append, List.length_cons, List.length_nil] <;> omega]
          simp only [List.append_assoc, List.cons_append, List.nil_append, List.singleton_append]
          rw [range'_mid']

/-! ### Top-level flatten call, as `reconstructRBST` performs it -/

theorem flatEmit_atEnd (k : Int) (l : List Int) :
    flatEmit k false 0 l =
      l.takeWhile (fun z => decide (z ≤ k)) ++ k :: l.dropWhile (fun z => decide (z ≤ k)) := by
  unfold flatEmit
  by_cases h : l.dropWhile (fun z => decide (z ≤ k)) = [] <;>
    simp [h, takeWhile_of_dropWhile_eq_nil]

theorem flatIdx_atEnd (k : Int) (l : List Int) (old : Option Nat) :
    flatIdx k false 0 l 0 old =
      some (l.takeWhile (fun z => decide (z ≤ k))).length := by
  unfold flatIdx
  by_cases h : l.dropWhile (fun z => decide (z ≤ k)) = [] <;>
    simp [h, takeWhile_of_dropWhile_eq_nil]

theorem flatAdded_spec (k : Int) (l : List Int) :
    flatAdded k false l = !(l.dropWhile (fun z => decide (z ≤ k))).isEmpty := by
  unfold flatAdded
  simp

theorem flattenRBST_top (k : Int) (t : Tree) (v L : Nat) (hL : L = cnt t + 1) :
    flattenRBST k t L
      { arr := List.replicate L 0, curIndex := 0, newNodeIndex := none,
        isAdded := false, nodesVisited := v, writes := [] } =
      { arr := (inorder t).takeWhile (fun z => decide (z ≤ k)) ++
                 k :: (inorder t).dropWhile (fun z => decide (z ≤ k)),
        curIndex := L,
        newNodeIndex := some ((inorder t).takeWhile (fun z => decide (z ≤ k))).length,
        isAdded := !((inorder t).dropWhile (fun z => decide (z ≤ k))).isEmpty,
        nodesVisited := v + cnt t,
        writes := List.range L } := by
  have htw := takeWhile_length_add_dropWhile_length (fun z => decide (z ≤ k)) (inorder t)
  have hlen := length_inorder t
  rw [flattenRBST_spec k L t _ [] (List.replicate L 0) 0 (by simp) (by simp)
    (by simp; omega) (by simp)]
  simp only [List.length_nil, List.nil_append]
  simp only [flatEmit_atEnd, flatIdx_atEnd, flatAdded_spec, FlatSt.mk.injEq]
  refine ⟨?_, ?_, ?_, ?_, ?_, ?_⟩
  · rw [List.drop_eq_nil_of_le (by simp; omega)]
    simp
  · simp only [List.length_append, List.length_cons, List.length_nil] <;> omega
  · trivial
  · trivial
  · trivial
  · have h9 : ((inorder t).takeWhile (fun z => decide (z ≤ k)) ++
        k :: (inorder t).dropWhile (fun z => decide (z ≤ k))).length = L := by
      simp only [List.length_append, List.length_cons, List.length_nil]
      omega
    rw [h9, List.range_eq_range']

/-! ### Array segments and the rebuild step -/

theorem seg_nil {arr : List Int} {first last : Int} (h : last < first) :
    seg arr first last = [] := by rw [seg]; simp [h]

theorem seg_cons {arr : List Int} {first last : Int} (h : ¬ last < first) :
    seg arr first last = readArr arr first :: seg arr (first + 1) last := by
  rw [seg]; simp [h]

theorem seg_length (arr : List Int) :
    ∀ (n : Nat) (first last : Int), (last + 1 - first).toNat = n →
      (seg arr first last).length = n := by
  intro n
  induction n using Nat.strong_induction_on with
  | _ n ih =>
    intro first last hn
    by_cases h : last < first
    · rw [seg_nil h]; simp; omega
    · rw [seg_cons h, List.length_cons,
        ih (last + 1 - (first + 1)).toNat (by omega) (first + 1) last rfl]
      omega

theorem seg_split (arr : List Int) :
    ∀ (n : Nat) (first i last : Int), (i - first).toNat = n → first ≤ i → i ≤ last →
      seg arr first last =
        seg arr first (i - 1) ++ readArr arr i :: seg arr (i + 1) last := by
  intro n
  induction n using Nat.strong_induction_on with
  | _ n ih =>
    intro first i last hn h1 h2
    by_cases h : i = first
    · subst h
      rw [seg_cons (show ¬ last < i from by omega),
        seg_nil (show i - 1 < i from by omega)]
      simp
    · rw [seg_cons (by omega : ¬ last < first),
        seg_cons (by omega : ¬ i - 1 < first),
        ih (i - (first + 1)).toNat (by omega) (first + 1) i last rfl (by omega) h2]
      simp

theorem seg_shift (x : Int) (xs : List Int) :
    ∀ (n : Nat) (first last first' last' : Int), (last + 1 - first).toNat = n →
      0 ≤ first → first' = first + 1 → last' = last + 1 →
      seg (x :: xs) first' last' = seg xs first last := by
  intro n
  induction n using Nat.strong_induction_on with
  | _ n ih =>
    intro first last first' last' hn h0 hf hl
    subst hf hl
    by_cases h : last < first
    · rw [seg_nil (by omega), seg_nil h]
    · rw [seg_cons (by omega : ¬ last + 1 < first + 1), seg_cons h]
      congr 1
      · unfold readArr
        have hx : (first + 1).toNat = first.toNat + 1 := by omega
        rw [hx]
        simp
      · exact ih (last + 1 - (first + 1)).toNat (by omega) (first + 1) last
          (first + 1 + 1) (last + 1) rfl (by omega) rfl rfl

theorem seg_all (arr : List Int) : seg arr 0 ((arr.length : Int) - 1) = arr := by
  induction arr with
  | nil => rw [seg_nil (by simp)]
  | cons x xs ih =>
      rw [seg_cons (by simp)]
      congr 1
      · rw [seg_shift x xs ((((xs.length : Int) - 1) + 1 - 0).toNat) 0
          ((xs.length : Int) - 1) (0 + 1) (((x :: xs).length : Int) - 1) rfl (by omega)
          (by omega) (by simp only [List.length_cons]; push_cast; omega)]
        exact ih

theorem sizeField_nil : sizeField Tree.nil = 0 := rfl

theorem sizeField_node (k : Int) (s : Nat) (l r : Tree) :
    sizeField (Tree.node k s l r) = s := rfl

theorem cnt_nil : cnt Tree.nil = 0 := rfl

theorem cnt_node (k : Int) (s : Nat) (l r : Tree) :
    cnt (Tree.node k s l r) = cnt l + cnt r + 1 := rfl

theorem inorder_nil : inorder Tree.nil = [] := rfl

theorem inorder_node (k : Int) (s : Nat) (l r : Tree) :
    inorder (Tree.node k s l r) = inorder l ++ k :: inorder r := rfl

theorem sizeOk_node (k : Int) (s : Nat) (l r : Tree) :
    sizeOk (Tree.node k s l r) =
      ((s == 1 + sizeField l + sizeField r) && sizeOk l && sizeOk r) := rfl

theorem makeRBSTRand_eq (pick : Nat → Nat) (arr : List Int) (first last : Int)
    (st : MakeSt) (h : ¬ last < first) :
    makeRBSTRand pick arr first last st =
      (let index : Int := first + (pick st.rc : Int) % (last - first + 1)
       let st1 : MakeSt := { rc := st.rc + 1, nodesVisited := st.nodesVisited + 1,
                             reads := st.reads ++ [index] }
       let p1 := makeRBSTRand pick arr first (index - 1) st1
       let p2 := makeRBSTRand pick arr (index + 1) last p1.2
       (.node (readArr arr index) (1 + sizeField p1.1 + sizeField p2.1) p1.1 p2.1,
        p2.2)) := by
  rw [makeRBSTRand]
  simp [h]

theorem makeRBSTRand_spec (pick : Nat → Nat) (arr : List Int) :
    ∀ (n : Nat) (first last : Int) (st : MakeSt), (last + 1 - first).toNat = n →
      inorder (makeRBSTRand pick arr first last st).1 = seg arr first last ∧
      sizeField (makeRBSTRand pick arr first last st).1 = (seg arr first last).length ∧
      sizeOk (makeRBSTRand pick arr first last st).1 = true ∧
      cnt (makeRBSTRand pick arr first last st).1 = (seg arr first last).length ∧
      (makeRBSTRand pick arr first last st).2.nodesVisited =
        st.nodesVisited + (seg arr first last).length ∧
      (∀ j ∈ (makeRBSTRand pick arr first last st).2.reads,
        j ∈ st.reads ∨ (first ≤ j ∧ j ≤ last)) := by
  intro n
  induction n using Nat.strong_induction_on with
  | _ n ih =>
    intro first last st hn
    by_cases h : last < first
    · rw [show makeRBSTRand pick arr first last st = (.nil, st) from by
        rw [makeRBSTRand]; simp [h], seg_nil h]
      exact ⟨rfl, rfl, rfl, rfl, by simp, fun j hj => Or.inl hj⟩
    · have hm0 : (0:Int) ≤ (pick st.rc : Int) % (last - first + 1) :=
        Int.emod_nonneg _ (by omega)
      have hm1 : (pick st.rc : Int) % (last - first + 1) < last - first + 1 :=
        Int.emod_lt_of_pos _ (by omega)
      rw [makeRBSTRand_eq pick arr first last st h]
      simp only []
      have ih1 := ih ((first + (pick st.rc : Int) % (last - first + 1)) - 1 + 1 -
          first).toNat (by omega) first
          ((first + (pick st.rc : Int) % (last - first + 1)) - 1)
          { rc := st.rc + 1, nodesVisited := st.nodesVisited + 1,
            reads := st.reads ++ [first + (pick st.rc : Int) % (last - first + 1)] }
          rfl
      have ih2 := ih (last + 1 - ((first + (pick st.rc : Int) % (last - first + 1)) +
          1)).toNat (by omega)
          ((first + (pick st.rc : Int) % (last - first + 1)) + 1) last
          (makeRBSTRand pick arr first
            ((first + (pick st.rc : Int) % (last - first + 1)) - 1)
            { rc := st.rc + 1, nodesVisited := st.nodesVisited + 1,
              reads := st.reads ++
                [first + (pick st.rc : Int) % (last - first + 1)] }).2
          rfl
      obtain ⟨he1, hs1, hk1, hc1, hv1, hr1⟩ := ih1
      obtain ⟨he2, hs2, hk2, hc2, hv2, hr2⟩ := ih2
      have hsplit := seg_split arr ((first + (pick st.rc : Int) % (last - first + 1)) -
          first).toNat first (first + (pick st.rc : Int) % (last - first + 1)) last rfl
          (by omega) (by omega)
      have hlen : (seg arr first last).length =
          (seg arr first ((first + (pick st.rc : Int) % (last - first + 1)) - 1)).length
          + 1 +
          (seg arr ((first + (pick st.rc : Int) % (last - first + 1)) + 1) last).length := by
        rw [hsplit]
        simp only [List.length_append, List.length_cons, List.length_nil]
        omega
      have hv1' : (makeRBSTRand pick arr first
          ((first + (pick st.rc : Int) % (last - first + 1)) - 1)
          { rc := st.rc + 1, nodesVisited := st.nodesVisited + 1,
            reads := st.reads ++
              [first + (pick st.rc : Int) % (last - first + 1)] }).2.nodesVisited =
          st.nodesVisited + 1 + (seg arr first
            ((first + (pick st.rc : Int) % (last - first + 1)) - 1)).length := hv1
      have hr1' : ∀ j ∈ (makeRBSTRand pick arr first
          ((first + (pick st.rc : Int) % (last - first + 1)) - 1)
          { rc := st.rc + 1, nodesVisited := st.nodesVisited + 1,
            reads := st.reads ++
              [first + (pick st.rc : Int) % (last - first + 1)] }).2.reads,
          j ∈ st.reads ++ [first + (pick st.rc : Int) % (last - first + 1)] ∨
            (first ≤ j ∧ j ≤ (first + (pick st.rc : Int) % (last - first + 1)) - 1) := hr1
      refine ⟨?_, ?_, ?_, ?_, ?_, ?_⟩
      · rw [hsplit]
        simp only [inorder_node, he1, he2]
      · rw [sizeField_node, hs1, hs2]
        omega
      · rw [sizeOk_node, hk1, hk2, hs1, hs2]
        simp
      · rw [cnt_node, hc1, hc2]
        omega
      · rw [hv2, hv1']
        omega
      · intro j hj
        rcases hr2 j hj with hj2 | hj2
        · rcases hr1' j hj2 with hj1 | hj1
          · simp only [List.mem_append, List.mem_singleton] at hj1
            rcases hj1 with hj1 | hj1
            · exact Or.inl hj1
            · right; constructor <;> omega
          · right; constructor <;> omega
        · right; constructor <;> omega

theorem makeRBSTRoot_spec (pick : Nat → Nat) (arr : List Int) (first last nn : Int)
    (st : MakeSt) (h1 : first ≤ nn) (h2 : nn ≤ last) :
    inorder (makeRBSTRoot pick arr first last nn st).1 = seg arr first last ∧
    rootKey (makeRBSTRoot pick arr first last nn st).1 = some (readArr arr nn) ∧
    sizeField (makeRBSTRoot pick arr first last nn st).1 = (seg arr first last).length ∧
    sizeOk (makeRBSTRoot pick arr first last nn st).1 = true ∧
    cnt (makeRBSTRoot pick arr first last nn st).1 = (seg arr first last).length ∧
    (makeRBSTRoot pick arr first last nn st).2.nodesVisited =
      st.nodesVisited + (seg arr first last).length ∧
    (∀ j ∈ (makeRBSTRoot pick arr first last nn st).2.reads,
      j ∈ st.reads ∨ (first ≤ j ∧ j ≤ last)) := by
  rw [show makeRBSTRoot pick arr first last nn st =
      (let st1 : MakeSt := { rc := st.rc, nodesVisited := st.nodesVisited + 1,
                             reads := st.reads ++ [nn] }
       let p1 := makeRBSTRand pick arr first (nn - 1) st1
       let p2 := makeRBSTRand pick arr (nn + 1) last p1.2
       (.node (readArr arr nn) (1 + sizeField p1.1 + sizeField p2.1) p1.1 p2.1,
        p2.2)) from by
    unfold makeRBSTRoot
    rw [if_neg (by omega)]]
  simp only []
  obtain ⟨he1, hs1, hk1, hc1, hv1, hr1⟩ := makeRBSTRand_spec pick arr
    ((nn - 1) + 1 - first).toNat first (nn - 1)
    { rc := st.rc, nodesVisited := st.nodesVisited + 1, reads := st.reads ++ [nn] } rfl
  obtain ⟨he2, hs2, hk2, hc2, hv2, hr2⟩ := makeRBSTRand_spec pick arr
    (last + 1 - (nn + 1)).toNat (nn + 1) last
    (makeRBSTRand pick arr first (nn - 1)
      { rc := st.rc, nodesVisited := st.nodesVisited + 1,
        reads := st.reads ++ [nn] }).2 rfl
  have hsplit := seg_split arr (nn - first).toNat first nn last rfl h1 h2
  have hv1' : (makeRBSTRand pick arr first (nn - 1)
      { rc := st.rc, nodesVisited := st.nodesVisited + 1,
        reads := st.reads ++ [nn] }).2.nodesVisited =
      st.nodesVisited + 1 + (seg arr first (nn - 1)).length := hv1
  have hr1' : ∀ j ∈ (makeRBSTRand pick arr first (nn - 1)
      { rc := st.rc, nodesVisited := st.nodesVisited + 1,
        reads := st.reads ++ [nn] }).2.reads,
      j ∈ st.reads ++ [nn] ∨ (first ≤ j ∧ j ≤ nn - 1) := hr1
  have hlen : (seg arr first last).length =
      (seg arr first (nn - 1)).length + 1 + (seg arr (nn + 1) last).length := by
    rw [hsplit]
    simp only [List.length_append, List.length_cons, List.length_nil]
    omega
  refine ⟨?_, rfl, ?_, ?_, ?_, ?_, ?_⟩
  · rw [hsplit]
    simp only [inorder_node, he1, he2]
  · rw [sizeField_node, hs1, hs2]
    omega
  · rw [sizeOk_node, hk1, hk2, hs1, hs2]
    simp
  · rw [cnt_node, hc1, hc2]
    omega
  · rw [hv2, hv1']
    omega
  · intro j hj
    rcases hr2 j hj with hj2 | hj2
    · rcases hr1' j hj2 with hj1 | hj1
      · simp only [List.mem_append, List.mem_singleton] at hj1
        rcases hj1 with hj1 | hj1
        · exact Or.inl hj1
        · right; constructor <;> omega
      · right; constructor <;> omega
    · right; constructor <;> omega

theorem getD_concat (l1 : List Int) (a : Int) (l2 : List Int) :
    (l1 ++ a :: l2).getD l1.length 0 = a := by
  induction l1 with
  | nil => rfl
  | cons x xs ih => simpa using ih

theorem sizeField_eq_cnt {t : Tree} (h : sizeOk t = true) : sizeField t = cnt t := by
  induction t with
  | nil => rfl
  | node k s l r ihl ihr =>
      rw [sizeOk_node] at h
      simp only [Bool.and_eq_true, beq_iff_eq] at h
      rw [sizeField_node, cnt_node, h.1.1, ihl h.1.2, ihr h.2]
      omega

/-- Full characterization of one `reconstructRBST` call on a subtree whose
size fields are correct: the result holds the new key at the root, its
in-order sequence is the old one with the new key inserted after every
key `≤` it, its sizes are correct, and the visit counter grows by
`2*(cnt t) + 1` (each old node counted once while flattening, each of the
`cnt t + 1` new nodes once while rebuilding). -/
theorem reconstructRBST_spec (pick : Nat → Nat) (t : Tree) (k : Int) (st : InsSt)
    (h : sizeOk t = true) :
    inorder (reconstructRBST pick t k st).1 =
      (inorder t).takeWhile (fun z => decide (z ≤ k)) ++
        k :: (inorder t).dropWhile (fun z => decide (z ≤ k)) ∧
    rootKey (reconstructRBST pick t k st).1 = some k ∧
    sizeOk (reconstructRBST pick t k st).1 = true ∧
    sizeField (reconstructRBST pick t k st).1 = cnt t + 1 ∧
    cnt (reconstructRBST pick t k st).1 = cnt t + 1 ∧
    (reconstructRBST pick t k st).2.nodesVisited =
      st.nodesVisited + (2 * cnt t + 1) := by
  have htw := takeWhile_length_add_dropWhile_length (fun z => decide (z ≤ k)) (inorder t)
  have hlen := length_inorder t
  have hsf : sizeField t = cnt t := sizeField_eq_cnt h
  have hA : ((inorder t).takeWhile (fun z => decide (z ≤ k)) ++
      k :: (inorder t).dropWhile (fun z => decide (z ≤ k))).length = cnt t + 1 := by
    simp only [List.length_append, List.length_cons, List.length_nil]
    omega
  unfold reconstructRBST
  simp only [hsf]
  rw [flattenRBST_top k t st.nodesVisited (cnt t + 1) rfl]
  simp only [Option.getD_some]
  obtain ⟨he, hroot, hs, hk2, hc, hv, _⟩ := makeRBSTRoot_spec pick
    ((inorder t).takeWhile (fun z => decide (z ≤ k)) ++
      k :: (inorder t).dropWhile (fun z => decide (z ≤ k)))
    0 (((cnt t + 1 : Nat) : Int) - 1)
    (((inorder t).takeWhile (fun z => decide (z ≤ k))).length : Int)
    { rc := st.rc, nodesVisited := st.nodesVisited + cnt t, reads := [] }
    (by positivity) (by push_cast; omega)
  have hseg : seg ((inorder t).takeWhile (fun z => decide (z ≤ k)) ++
      k :: (inorder t).dropWhile (fun z => decide (z ≤ k)))
      0 (((cnt t + 1 : Nat) : Int) - 1) =
      (inorder t).takeWhile (fun z => decide (z ≤ k)) ++
        k :: (inorder t).dropWhile (fun z => decide (z ≤ k)) := by
    rw [show (((cnt t + 1 : Nat) : Int) - 1) =
        ((((inorder t).takeWhile (fun z => decide (z ≤ k)) ++
          k :: (inorder t).dropWhile (fun z => decide (z ≤ k))).length : Int) - 1) from by
      rw [hA]]
    exact seg_all _
  rw [hseg] at he hs hc hv
  have hv' : (makeRBSTRoot pick
      ((inorder t).takeWhile (fun z => decide (z ≤ k)) ++
        k :: (inorder t).dropWhile (fun z => decide (z ≤ k)))
      0 (((cnt t + 1 : Nat) : Int) - 1)
      (((inorder t).takeWhile (fun z => decide (z ≤ k))).length : Int)
      { rc := st.rc, nodesVisited := st.nodesVisited + cnt t,
        reads := [] }).2.nodesVisited =
      st.nodesVisited + cnt t + ((inorder t).takeWhile (fun z => decide (z ≤ k)) ++
        k :: (inorder t).dropWhile (fun z => decide (z ≤ k))).length := hv
  have hread : readArr ((inorder t).takeWhile (fun z => decide (z ≤ k)) ++
      k :: (inorder t).dropWhile (fun z => decide (z ≤ k)))
      (((inorder t).takeWhile (fun z => decide (z ≤ k))).length : Int) = k := by
    unfold readArr
    rw [show ((((inorder t).takeWhile (fun z => decide (z ≤ k))).length : Int)).toNat =
      ((inorder t).takeWhile (fun z => decide (z ≤ k))).length from by omega]
    exact getD_concat _ _ _
  refine ⟨he, ?_, hk2, ?_, ?_, ?_⟩
  · rw [hroot, hread]
  · rw [hs, hA]
  · rw [hc, hA]
  · rw [hv', hA]
    omega
/-! ### The insertion step -/

theorem insertRBSTHelper_spec (coin : Nat → Bool) (pick : Nat → Nat) (k : Int) :
    ∀ (t : Tree) (st : InsSt), sizeOk t = true →
      sizeOk (insertRBSTHelper coin pick t k st).1 = true ∧
      cnt (insertRBSTHelper coin pick t k st).1 = cnt t + 1 ∧
      sizeField (insertRBSTHelper coin pick t k st).1 = sizeField t + 1 ∧
      (inorder (insertRBSTHelper coin pick t k st).1).Perm (k :: inorder t) := by
  intro t
  induction t with
  | nil =>
    intro st h
    exact ⟨rfl, rfl, rfl, by simp [insertRBSTHelper, inorder]⟩
  | node ck sz l r ihl ihr =>
    intro st h
    rw [sizeOk_node] at h
    simp only [Bool.and_eq_true, beq_iff_eq] at h
    obtain ⟨⟨hsz, hl⟩, hr⟩ := h
    have hok : sizeOk (Tree.node ck sz l r) = true := by
      rw [sizeOk_node]; simp [hsz, hl, hr]
    simp only [insertRBSTHelper]
    by_cases hc : coin st.dc
    · rw [if_pos hc]
      obtain ⟨hio, hroot, hsok, hsf, hcnt, hv⟩ := reconstructRBST_spec pick
        (.node ck sz l r) k
        { st with dc := st.dc + 1, nodesVisited := st.nodesVisited + 1,
                  path := st.path ++ [ck], rebuiltSize := some sz } hok
      refine ⟨hsok, hcnt, ?_, ?_⟩
      · have hsl := sizeField_eq_cnt hl
        have hsr := sizeField_eq_cnt hr
        rw [hsf, sizeField_node, cnt_node]
        omega
      · rw [hio]
        have hp : ((inorder (Tree.node ck sz l r)).takeWhile (fun z => decide (z ≤ k)) ++
            k :: (inorder (Tree.node ck sz l r)).dropWhile (fun z => decide (z ≤ k))).Perm
            (k :: ((inorder (Tree.node ck sz l r)).takeWhile (fun z => decide (z ≤ k)) ++
              (inorder (Tree.node ck sz l r)).dropWhile (fun z => decide (z ≤ k)))) :=
          List.perm_middle
        rw [List.takeWhile_append_dropWhile] at hp
        exact hp
    · rw [if_neg hc]
      by_cases hk : k < ck
      · rw [if_pos hk]
        obtain ⟨ho1, hc1, hs1, hp1⟩ := ihl
          { st with dc := st.dc + 1, nodesVisited := st.nodesVisited + 1,
                    path := st.path ++ [ck] } hl
        refine ⟨?_, ?_, ?_, ?_⟩
        · rw [sizeOk_node, ho1, hs1]
          simp only [Bool.and_eq_true, beq_iff_eq]
          refine ⟨⟨by omega, trivial⟩, hr⟩
        · rw [cnt_node, cnt_node, hc1]
          omega
        · rw [sizeField_node, sizeField_node]
        · rw [inorder_node, inorder_node]
          have hp2 := hp1.append_right (ck :: inorder r)
          simp only [List.cons_append] at hp2
          exact hp2
      · rw [if_neg hk]
        obtain ⟨ho1, hc1, hs1, hp1⟩ := ihr
          { st with dc := st.dc + 1, nodesVisited := st.nodesVisited + 1,
                    path := st.path ++ [ck] } hr
        refine ⟨?_, ?_, ?_, ?_⟩
        · rw [sizeOk_node, ho1, hs1]
          simp only [Bool.and_eq_true, beq_iff_eq]
          refine ⟨⟨by omega, hl⟩, trivial⟩
        · rw [cnt_node, cnt_node, hc1]
          omega
        · rw [sizeField_node, sizeField_node]
        · rw [inorder_node, inorder_node]
          have hp2 := List.Perm.append_left (inorder l) (List.Perm.cons ck hp1)
          refine hp2.trans ?_
          have hp3 : ((inorder l ++ [ck]) ++ k :: inorder r).Perm
              (k :: ((inorder l ++ [ck]) ++ inorder r)) := List.perm_middle
          simp only [List.append_assoc, List.cons_append, List.nil_append,
            List.singleton_append] at hp3
          exact hp3

theorem sorted_dropWhile_gt {k : Int} :
    ∀ {l : List Int}, List.Pairwise (fun a b => a ≤ b) l →
      ∀ x ∈ l.dropWhile (fun z => decide (z ≤ k)), k < x := by
  intro l
  induction l with
  | nil => intro _ x hx; simp at hx
  | cons a as ih =>
    intro hs x hx
    rw [List.pairwise_cons] at hs
    by_cases ha : a ≤ k
    · rw [List.dropWhile_cons, if_pos (by simpa using ha)] at hx
      exact ih hs.2 x hx
    · rw [List.dropWhile_cons, if_neg (by simpa using ha)] at hx
      rcases List.mem_cons.mp hx with hx | hx
      · omega
      · have := hs.1 x hx
        omega

theorem insertRBSTHelper_sorted (coin : Nat → Bool) (pick : Nat → Nat) (k : Int) :
    ∀ (t : Tree) (st : InsSt), sizeOk t = true →
      List.Pairwise (fun a b => a ≤ b) (inorder t) →
      List.Pairwise (fun a b => a ≤ b)
        (inorder (insertRBSTHelper coin pick t k st).1) := by
  intro t
  induction t with
  | nil =>
    intro st h hs
    simp [insertRBSTHelper, inorder]
  | node ck sz l r ihl ihr =>
    intro st h hs
    have h' := h
    rw [sizeOk_node] at h'
    simp only [Bool.and_eq_true, beq_iff_eq] at h'
    obtain ⟨⟨hsz, hl⟩, hr⟩ := h'
    rw [inorder_node, List.pairwise_append] at hs
    obtain ⟨hsl, hsr', hcross⟩ := hs
    rw [List.pairwise_cons] at hsr'
    obtain ⟨hckr, hsr⟩ := hsr'
    simp only [insertRBSTHelper]
    by_cases hc : coin st.dc
    · rw [if_pos hc]
      obtain ⟨hio, hroot, hsok, hsf, hcnt, hv⟩ := reconstructRBST_spec pick
        (.node ck sz l r) k
        { st with dc := st.dc + 1, nodesVisited := st.nodesVisited + 1,
                  path := st.path ++ [ck], rebuiltSize := some sz } h
      rw [hio]
      have hsall : List.Pairwise (fun a b => a ≤ b) (inorder (Tree.node ck sz l r)) := by
        rw [inorder_node, List.pairwise_append, List.pairwise_cons]
        exact ⟨hsl, ⟨hckr, hsr⟩, hcross⟩
      rw [List.pairwise_append]
      refine ⟨hsall.sublist (List.takeWhile_sublist _), ?_, ?_⟩
      · rw [List.pairwise_cons]
        refine ⟨fun x hx => le_of_lt (sorted_dropWhile_gt hsall x hx),
          hsall.sublist (List.dropWhile_sublist _)⟩
      · intro x hx y hy
        have hxk : x ≤ k := by simpa using List.mem_takeWhile_imp hx
        rcases List.mem_cons.mp hy with hy | hy
        · omega
        · have := sorted_dropWhile_gt hsall y hy
          omega
    · rw [if_neg hc]
      by_cases hk : k < ck
      · rw [if_pos hk]
        obtain ⟨ho1, hc1, hs1, hp1⟩ := insertRBSTHelper_spec coin pick k l
          { st with dc := st.dc + 1, nodesVisited := st.nodesVisited + 1,
                    path := st.path ++ [ck] } hl
        have hip := ihl
          { st with dc := st.dc + 1, nodesVisited := st.nodesVisited + 1,
                    path := st.path ++ [ck] } hl hsl
        simp only [inorder_node, List.pairwise_append]
        refine ⟨hip, by rw [List.pairwise_cons]; exact ⟨hckr, hsr⟩, ?_⟩
        intro x hx y hy
        have hx' : x = k ∨ x ∈ inorder l := by
          have := hp1.mem_iff.mp hx
          simpa using this
        rcases List.mem_cons.mp hy with hy | hy
        · rcases hx' with hx' | hx'
          · omega
          · have := hcross x hx' ck (List.mem_cons_self _ _)
            omega
        · rcases hx' with hx' | hx'
          · have := hckr y hy
            omega
          · exact hcross x hx' y (List.mem_cons_of_mem _ hy)
      · rw [if_neg hk]
        obtain ⟨ho1, hc1, hs1, hp1⟩ := insertRBSTHelper_spec coin pick k r
          { st with dc := st.dc + 1, nodesVisited := st.nodesVisited + 1,
                    path := st.path ++ [ck] } hr
        have hip := ihr
          { st with dc := st.dc + 1, nodesVisited := st.nodesVisited + 1,
                    path := st.path ++ [ck] } hr hsr
        simp only [inorder_node, List.pairwise_append]
        refine ⟨hsl, ?_, ?_⟩
        · rw [List.pairwise_cons]
          refine ⟨?_, hip⟩
          intro y hy
          have hy' : y = k ∨ y ∈ inorder r := by
            have := hp1.mem_iff.mp hy
            simpa using this
          rcases hy' with hy' | hy'
          · omega
          · exact hckr y hy'
        · intro x hx y hy
          rcases List.mem_cons.mp hy with hy | hy
          · have := hcross x hx ck (List.mem_cons_self _ _)
            omega
          · have hy' : y = k ∨ y ∈ inorder r := by
              have := hp1.mem_iff.mp hy
              simpa using this
            rcases hy' with hy' | hy'
            · have := hcross x hx ck (List.mem_cons_self _ _)
              omega
            · exact hcross x hx y (List.mem_cons_of_mem _ hy')

theorem insertRBSTHelper_visited (coin : Nat → Bool) (pick : Nat → Nat) (k : Int) :
    ∀ (t : Tree) (st : InsSt), sizeOk t = true → st.rebuiltSize = none →
      ∃ p, (insertRBSTHelper coin pick t k st).2.path = st.path ++ p ∧
        (((insertRBSTHelper coin pick t k st).2.rebuiltSize = none ∧
          (insertRBSTHelper coin pick t k st).2.nodesVisited =
            st.nodesVisited + p.length) ∨
         (∃ s, (insertRBSTHelper coin pick t k st).2.rebuiltSize = some s ∧
           (insertRBSTHelper coin pick t k st).2.nodesVisited =
             st.nodesVisited + p.length + (2 * s + 1))) := by
  intro t
  induction t with
  | nil =>
    intro st h hrs
    exact ⟨[], by simp [insertRBSTHelper], Or.inl ⟨hrs, by simp [insertRBSTHelper]⟩⟩
  | node ck sz l r ihl ihr =>
    intro st h hrs
    have h' := h
    rw [sizeOk_node] at h'
    simp only [Bool.and_eq_true, beq_iff_eq] at h'
    obtain ⟨⟨hsz, hl⟩, hr⟩ := h'
    have hcnt : cnt (Tree.node ck sz l r) = sz := by
      rw [← sizeField_eq_cnt h, sizeField_node]
    simp only [insertRBSTHelper]
    by_cases hc : coin st.dc
    · rw [if_pos hc]
      obtain ⟨hio, hroot, hsok, hsf, hcnt2, hv⟩ := reconstructRBST_spec pick
        (.node ck sz l r) k
        { st with dc := st.dc + 1, nodesVisited := st.nodesVisited + 1,
                  path := st.path ++ [ck], rebuiltSize := some sz } h
      refine ⟨[ck], ?_, Or.inr ⟨sz, ?_, ?_⟩⟩
      · rfl
      · rfl
      · have hv' : (reconstructRBST pick (Tree.node ck sz l r) k
            { st with dc := st.dc + 1, nodesVisited := st.nodesVisited + 1,
                      path := st.path ++ [ck],
                      rebuiltSize := some sz }).2.nodesVisited =
            st.nodesVisited + 1 + (2 * cnt (Tree.node ck sz l r) + 1) := hv
        rw [hv', hcnt]
        simp
    · rw [if_neg hc]
      by_cases hk : k < ck
      · rw [if_pos hk]
        obtain ⟨p, hp, hcase⟩ := ihl
          { st with dc := st.dc + 1, nodesVisited := st.nodesVisited + 1,
                    path := st.path ++ [ck] } hl (by exact hrs)
        refine ⟨ck :: p, ?_, ?_⟩
        · have hp' : (insertRBSTHelper coin pick l k
              { st with dc := st.dc + 1, nodesVisited := st.nodesVisited + 1,
                        path := st.path ++ [ck] }).2.path =
              (st.path ++ [ck]) ++ p := hp
          rw [hp']
          simp
        · rcases hcase with ⟨h1, h2⟩ | ⟨s, h1, h2⟩
          · refine Or.inl ⟨h1, ?_⟩
            have h2' : (insertRBSTHelper coin pick l k
                { st with dc := st.dc + 1, nodesVisited := st.nodesVisited + 1,
                          path := st.path ++ [ck] }).2.nodesVisited =
                st.nodesVisited + 1 + p.length := h2
            rw [h2']
            simp only [List.length_cons]
            omega
          · refine Or.inr ⟨s, h1, ?_⟩
            have h2' : (insertRBSTHelper coin pick l k
                { st with dc := st.dc + 1, nodesVisited := st.nodesVisited + 1,
                          path := st.path ++ [ck] }).2.nodesVisited =
                st.nodesVisited + 1 + p.length + (2 * s + 1) := h2
            rw [h2']
            simp only [List.length_cons]
            omega
      · rw [if_neg hk]
        obtain ⟨p, hp, hcase⟩ := ihr
          { st with dc := st.dc + 1, nodesVisited := st.nodesVisited + 1,
                    path := st.path ++ [ck] } hr (by exact hrs)
        refine ⟨ck :: p, ?_, ?_⟩
        · have hp' : (insertRBSTHelper coin pick r k
              { st with dc := st.dc + 1, nodesVisited := st.nodesVisited + 1,
                        path := st.path ++ [ck] }).2.path =
              (st.path ++ [ck]) ++ p := hp
          rw [hp']
          simp
        · rcases hcase with ⟨h1, h2⟩ | ⟨s, h1, h2⟩
          · refine Or.inl ⟨h1, ?_⟩
            have h2' : (insertRBSTHelper coin pick r k
                { st with dc := st.dc + 1, nodesVisited := st.nodesVisited + 1,
                          path := st.path ++ [ck] }).2.nodesVisited =
                st.nodesVisited + 1 + p.length := h2
            rw [h2']
            simp only [List.length_cons]
            omega
          · refine Or.inr ⟨s, h1, ?_⟩
            have h2' : (insertRBSTHelper coin pick r k
                { st with dc := st.dc + 1, nodesVisited := st.nodesVisited + 1,
                          path := st.path ++ [ck] }).2.nodesVisited =
                st.nodesVisited + 1 + p.length + (2 * s + 1) := h2
            rw [h2']
            simp only [List.length_cons]
            omega

theorem insertRBST_spec (coin : Nat → Bool) (pick : Nat → Nat) (root : Tree)
    (k : Int) (dc rc : Nat) (h : sizeOk root = true) :
    sizeOk (insertRBST coin pick root k dc rc).1 = true ∧
    cnt (insertRBST coin pick root k dc rc).1 = cnt root + 1 ∧
    (inorder (insertRBST coin pick root k dc rc).1).Perm (k :: inorder root) ∧
    (List.Pairwise (fun a b => a ≤ b) (inorder root) →
      List.Pairwise (fun a b => a ≤ b) (inorder (insertRBST coin pick root k dc rc).1)) := by
  cases root with
  | nil =>
    refine ⟨rfl, rfl, by simp [insertRBST, inorder], ?_⟩
    intro _
    simp [insertRBST, inorder]
  | node ck sz l r =>
    obtain ⟨h1, h2, h3, h4⟩ := insertRBSTHelper_spec coin pick k (.node ck sz l r)
      { dc := dc, rc := rc, nodesVisited := 1, path := [], rebuiltSize := none } h
    exact ⟨h1, h2, h4,
      fun hs => insertRBSTHelper_sorted coin pick k (.node ck sz l r)
        { dc := dc, rc := rc, nodesVisited := 1, path := [], rebuiltSize := none } h hs⟩

theorem insertRBST_visited (coin : Nat → Bool) (pick : Nat → Nat) (root : Tree)
    (k : Int) (dc rc : Nat) (h : sizeOk root = true) :
    (insertRBST coin pick root k dc rc).2.nodesVisited =
      1 + (insertRBST coin pick root k dc rc).2.path.length +
        (match (insertRBST coin pick root k dc rc).2.rebuiltSize with
         | none => 0
         | some s => 2 * s + 1) := by
  cases root with
  | nil => rfl
  | node ck sz l r =>
    obtain ⟨p, hp, hcase⟩ := insertRBSTHelper_visited coin pick k (.node ck sz l r)
      { dc := dc, rc := rc, nodesVisited := 1, path := [], rebuiltSize := none } h rfl
    have hp' : (insertRBST coin pick (.node ck sz l r) k dc rc).2.path = p := hp
    rcases hcase with ⟨h1, h2⟩ | ⟨s, h1, h2⟩
    · have h1' : (insertRBST coin pick (.node ck sz l r) k dc rc).2.rebuiltSize =
        none := h1
      have h2' : (insertRBST coin pick (.node ck sz l r) k dc rc).2.nodesVisited =
        1 + p.length := h2
      rw [h1', h2', hp']
      rfl
    · have h1' : (insertRBST coin pick (.node ck sz l r) k dc rc).2.rebuiltSize =
        some s := h1
      have h2' : (insertRBST coin pick (.node ck sz l r) k dc rc).2.nodesVisited =
        1 + p.length + (2 * s + 1) := h2
      rw [h1', h2', hp']

theorem insertList_go (coin : Nat → Bool) (pick : Nat → Nat) :
    ∀ (ks : List Int) (t : Tree) (dc rc : Nat), sizeOk t = true →
      sizeOk (ks.foldl (fun acc k =>
        let p := insertRBST coin pick acc.1 k acc.2.1 acc.2.2
        (p.1, p.2.dc, p.2.rc)) (t, dc, rc)).1 = true ∧
      (inorder (ks.foldl (fun acc k =>
        let p := insertRBST coin pick acc.1 k acc.2.1 acc.2.2
        (p.1, p.2.dc, p.2.rc)) (t, dc, rc)).1).Perm (inorder t ++ ks) ∧
      (List.Pairwise (fun a b => a ≤ b) (inorder t) →
        List.Pairwise (fun a b => a ≤ b) (inorder (ks.foldl (fun acc k =>
          let p := insertRBST coin pick acc.1 k acc.2.1 acc.2.2
          (p.1, p.2.dc, p.2.rc)) (t, dc, rc)).1)) := by
  intro ks
  induction ks with
  | nil =>
    intro t dc rc h
    exact ⟨h, by simp, fun hs => hs⟩
  | cons k ks ih =>
    intro t dc rc h
    obtain ⟨h1, h2, h3, h4⟩ := insertRBST_spec coin pick t k dc rc h
    obtain ⟨g1, g2, g3⟩ := ih (insertRBST coin pick t k dc rc).1
      (insertRBST coin pick t k dc rc).2.dc (insertRBST coin pick t k dc rc).2.rc h1
    simp only [List.foldl_cons]
    refine ⟨g1, ?_, fun hs => g3 (h4 hs)⟩
    refine g2.trans ?_
    refine (h3.append_right ks).trans ?_
    have hm : ((k :: inorder t) ++ ks).Perm (inorder t ++ k :: ks) := by
      simp only [List.cons_append]
      exact List.perm_middle.symm
    exact hm

theorem insertList_facts (coin : Nat → Bool) (pick : Nat → Nat) (ks : List Int) :
    sizeOk (insertList coin pick ks).1 = true ∧
    (inorder (insertList coin pick ks).1).Perm ks ∧
    List.Pairwise (fun a b => a ≤ b) (inorder (insertList coin pick ks).1) := by
  obtain ⟨h1, h2, h3⟩ := insertList_go coin pick ks Tree.nil 0 0 rfl
  refine ⟨h1, by simpa using h2, h3 (by simp [inorder])⟩

theorem pairwise_inorder_weakBST :
    ∀ {t : Tree}, List.Pairwise (fun a b => a ≤ b) (inorder t) → weakBST t = true := by
  intro t
  induction t with
  | nil => intro _; rfl
  | node ck sz l r ihl ihr =>
    intro hs
    rw [inorder_node, List.pairwise_append] at hs
    obtain ⟨hsl, hsr', hcross⟩ := hs
    rw [List.pairwise_cons] at hsr'
    obtain ⟨hckr, hsr⟩ := hsr'
    show ((inorder l).all (fun x => decide (x ≤ ck)) &&
      (inorder r).all (fun x => decide (ck ≤ x)) &&
      weakBST l && weakBST r) = true
    simp only [Bool.and_eq_true, List.all_eq_true, decide_eq_true_eq]
    exact ⟨⟨⟨fun x hx => hcross x hx ck (List.mem_cons_self _ _), hckr⟩, ihl hsl⟩,
      ihr hsr⟩

theorem freeRBSTHelper_spec : ∀ (t : Tree) (n : Nat), freeRBSTHelper t n = n + cnt t := by
  intro t
  induction t with
  | nil => intro n; simp [freeRBSTHelper, cnt]
  | node ck sz l r ihl ihr =>
    intro n
    show freeRBSTHelper r (freeRBSTHelper l (n + 1)) = n + cnt (Tree.node ck sz l r)
    rw [ihl, ihr, cnt_node]
    omega

theorem freeRBST_cnt (t : Tree) : freeRBST t = cnt t := by
  show freeRBSTHelper t 0 = cnt t
  rw [freeRBSTHelper_spec]
  omega
theorem sorted_insert_split {k : Int} {l : List Int}
    (hs : List.Pairwise (fun a b => a ≤ b) l) :
    List.Pairwise (fun a b => a ≤ b)
      (l.takeWhile (fun z => decide (z ≤ k)) ++
        k :: l.dropWhile (fun z => decide (z ≤ k))) := by
  rw [List.pairwise_append]
  refine ⟨hs.sublist (List.takeWhile_sublist _), ?_, ?_⟩
  · rw [List.pairwise_cons]
    exact ⟨fun x hx => le_of_lt (sorted_dropWhile_gt hs x hx),
      hs.sublist (List.dropWhile_sublist _)⟩
  · intro x hx y hy
    have hxk : x ≤ k := by simpa using List.mem_takeWhile_imp hx
    rcases List.mem_cons.mp hy with hy | hy
    · omega
    · have := sorted_dropWhile_gt hs y hy
      omega

/-! ### The claims -/

/-- C1: for any sequence of `insertRBST` calls starting from an empty tree
(and any outcome of the two random sources), the in-order traversal of the
resulting tree is a permutation of the multiset of inserted keys and is in
non-decreasing order. -/
theorem c1_ordering (coin : Nat → Bool) (pick : Nat → Nat) (ks : List Int) :
    (inorder (insertList coin pick ks).1).Perm ks ∧
    List.Sorted (fun a b => a ≤ b) (inorder (insertList coin pick ks).1) := by
  obtain ⟨h1, h2, h3⟩ := insertList_facts coin pick ks
  exact ⟨h2, h3⟩

/-- C2 counterexample: inserting the duplicate key 1 twice, with the
rebuild coin coming up true at the root, produces the tree
`node 1 (node 1 nil nil) nil`, whose left subtree holds a key equal to
(not strictly less than) the root key.  So the claimed strict left
invariant fails on the code. -/
theorem c2_counterexample :
    strictBST (insertList (fun _ => true) (fun _ => 0) [1, 1]).1 = false := by
  simp [insertList, insertRBST, insertRBSTHelper, reconstructRBST, flattenRBST,
    makeRBSTRoot, makeRBSTRand, initRBST, readArr, sizeField, strictBST, inorder]

/-- C2 amended: after every completed insert call (from an empty tree, any
random outcome), every key in a node's left subtree is `≤` the node's key
and every key in its right subtree is `≥` the node's key.  (The code
routes an equal new key right during descent, but a rebuild may place
existing equal keys into a left subtree, so only the weak form holds.) -/
theorem c2_weak_bst (coin : Nat → Bool) (pick : Nat → Nat) (ks : List Int) :
    weakBST (insertList coin pick ks).1 = true := by
  obtain ⟨h1, h2, h3⟩ := insertList_facts coin pick ks
  exact pairwise_inorder_weakBST h3

/-- C3: an insert (with any random outcome) on any tree whose `size`
fields satisfy `size == 1 + size(left) + size(right)` — including inserts
that trigger a rebuild — yields a tree whose nodes all satisfy it again. -/
theorem c3_size_invariant (coin : Nat → Bool) (pick : Nat → Nat) (t : Tree)
    (k : Int) (dc rc : Nat) (h : sizeOk t = true) :
    sizeOk (insertRBST coin pick t k dc rc).1 = true :=
  (insertRBST_spec coin pick t k dc rc h).1

theorem c3_size_invariant_witness :
    sizeOk (Tree.node 5 1 .nil .nil) = true ∧
    sizeOk (insertRBST (fun _ => true) (fun _ => 0)
      (Tree.node 5 1 .nil .nil) 7 0 0).1 = true :=
  ⟨by decide,
   c3_size_invariant (fun _ => true) (fun _ => 0) (Tree.node 5 1 .nil .nil) 7 0 0
     (by decide)⟩

/-- C4: flattening a subtree `t` of size `s = sizeField t` (size fields
correct, in-order sorted) together with a new key `k`, exactly as
`reconstructRBST` invokes it, fills the array with `s + 1` keys in
non-decreasing order: the keys `≤ k` of `t`, then `k` itself, then the
keys `> k` — so the new key lands immediately after all existing keys
equal to it (and at the very end when it is `≥` every existing key) —
and records the new key's index. -/
theorem c4_flatten_spec (t : Tree) (k : Int) (v : Nat) (h : sizeOk t = true)
    (hs : List.Sorted (fun a b => a ≤ b) (inorder t)) :
    (flattenRBST k t (sizeField t + 1)
        { arr := List.replicate (sizeField t + 1) 0, curIndex := 0,
          newNodeIndex := none, isAdded := false, nodesVisited := v,
          writes := [] }).arr =
      (inorder t).takeWhile (fun z => decide (z ≤ k)) ++
        k :: (inorder t).dropWhile (fun z => decide (z ≤ k)) ∧
    (∀ x ∈ (inorder t).takeWhile (fun z => decide (z ≤ k)), x ≤ k) ∧
    (∀ x ∈ (inorder t).dropWhile (fun z => decide (z ≤ k)), k < x) ∧
    List.Sorted (fun a b => a ≤ b)
      (flattenRBST k t (sizeField t + 1)
        { arr := List.replicate (sizeField t + 1) 0, curIndex := 0,
          newNodeIndex := none, isAdded := false, nodesVisited := v,
          writes := [] }).arr ∧
    (flattenRBST k t (sizeField t + 1)
        { arr := List.replicate (sizeField t + 1) 0, curIndex := 0,
          newNodeIndex := none, isAdded := false, nodesVisited := v,
          writes := [] }).arr.length = sizeField t + 1 ∧
    ((flattenRBST k t (sizeField t + 1)
        { arr := List.replicate (sizeField t + 1) 0, curIndex := 0,
          newNodeIndex := none, isAdded := false, nodesVisited := v,
          writes := [] }).arr).Perm (k :: inorder t) ∧
    (flattenRBST k t (sizeField t + 1)
        { arr := List.replicate (sizeField t + 1) 0, curIndex := 0,
          newNodeIndex := none, isAdded := false, nodesVisited := v,
          writes := [] }).newNodeIndex =
      some ((inorder t).takeWhile (fun z => decide (z ≤ k))).length := by
  have hsf : sizeField t = cnt t := sizeField_eq_cnt h
  have htw := takeWhile_length_add_dropWhile_length (fun z => decide (z ≤ k)) (inorder t)
  have hlen := length_inorder t
  rw [flattenRBST_top k t v (sizeField t + 1) (by omega)]
  refine ⟨rfl, ?_, ?_, ?_, ?_, ?_, rfl⟩
  · intro x hx
    simpa using List.mem_takeWhile_imp hx
  · exact fun x hx => sorted_dropWhile_gt hs x hx
  · exact sorted_insert_split hs
  · simp only [List.length_append, List.length_cons, List.length_nil]
    omega
  · have hp : ((inorder t).takeWhile (fun z => decide (z ≤ k)) ++
        k :: (inorder t).dropWhile (fun z => decide (z ≤ k))).Perm
        (k :: ((inorder t).takeWhile (fun z => decide (z ≤ k)) ++
          (inorder t).dropWhile (fun z => decide (z ≤ k)))) := List.perm_middle
    rw [List.takeWhile_append_dropWhile] at hp
    exact hp

theorem c4_flatten_spec_witness :
    sizeOk (Tree.node 5 1 .nil .nil) = true ∧
    List.Sorted (fun a b => a ≤ b) (inorder (Tree.node 5 1 .nil .nil)) ∧
    (flattenRBST 5 (Tree.node 5 1 .nil .nil)
        (sizeField (Tree.node 5 1 .nil .nil) + 1)
        { arr := List.replicate (sizeField (Tree.node 5 1 .nil .nil) + 1) 0,
          curIndex := 0, newNodeIndex := none, isAdded := false,
          nodesVisited := 0, writes := [] }).arr =
      (inorder (Tree.node 5 1 .nil .nil)).takeWhile (fun z => decide (z ≤ 5)) ++
        5 :: (inorder (Tree.node 5 1 .nil .nil)).dropWhile (fun z => decide (z ≤ 5)) :=
  ⟨by decide, by decide,
   (c4_flatten_spec (Tree.node 5 1 .nil .nil) 5 0 (by decide) (by decide)).1⟩

/-- C5: whenever an insert triggers Linearize+Rebuild at a subtree (size
fields correct), the rebuilt subtree returned by `reconstructRBST` has the
newly inserted key at its root, and its keys are exactly the former keys
plus the new one. -/
theorem c5_rebuild_root (pick : Nat → Nat) (t : Tree) (k : Int) (st : InsSt)
    (h : sizeOk t = true) :
    rootKey (reconstructRBST pick t k st).1 = some k ∧
    (inorder (reconstructRBST pick t k st).1).Perm (k :: inorder t) := by
  obtain ⟨hio, hroot, hsok, hsf, hcnt, hv⟩ := reconstructRBST_spec pick t k st h
  refine ⟨hroot, ?_⟩
  rw [hio]
  have hp : ((inorder t).takeWhile (fun z => decide (z ≤ k)) ++
      k :: (inorder t).dropWhile (fun z => decide (z ≤ k))).Perm
      (k :: ((inorder t).takeWhile (fun z => decide (z ≤ k)) ++
        (inorder t).dropWhile (fun z => decide (z ≤ k)))) := List.perm_middle
  rw [List.takeWhile_append_dropWhile] at hp
  exact hp

theorem c5_rebuild_root_witness :
    sizeOk (Tree.node 5 2 (Tree.node 3 1 .nil .nil) .nil) = true ∧
    rootKey (reconstructRBST (fun _ => 0) (Tree.node 5 2 (Tree.node 3 1 .nil .nil) .nil)
        4 { dc := 0, rc := 0, nodesVisited := 0, path := [], rebuiltSize := none }).1 =
      some 4 ∧
    (inorder (reconstructRBST (fun _ => 0) (Tree.node 5 2 (Tree.node 3 1 .nil .nil) .nil)
        4 { dc := 0, rc := 0, nodesVisited := 0, path := [],
            rebuiltSize := none }).1).Perm
      (4 :: inorder (Tree.node 5 2 (Tree.node 3 1 .nil .nil) .nil)) :=
  ⟨by decide,
   (c5_rebuild_root (fun _ => 0) (Tree.node 5 2 (Tree.node 3 1 .nil .nil) .nil) 4
     { dc := 0, rc := 0, nodesVisited := 0, path := [], rebuiltSize := none }
     (by decide)).1,
   (c5_rebuild_root (fun _ => 0) (Tree.node 5 2 (Tree.node 3 1 .nil .nil) .nil) 4
     { dc := 0, rc := 0, nodesVisited := 0, path := [], rebuiltSize := none }
     (by decide)).2⟩

/-- C6: after inserting the keys `ks` into a freshly created tree (any
random outcome), the tree holds exactly `ks.length` nodes; `freeRBST`
visits and releases each node exactly once, reporting exactly the node
count of the tree it tears down; and tearing down an empty tree frees
nothing and returns 0. -/
theorem c6_count_teardown :
    (∀ (coin : Nat → Bool) (pick : Nat → Nat) (ks : List Int),
      cnt (insertList coin pick ks).1 = ks.length ∧
      freeRBST (insertList coin pick ks).1 = ks.length) ∧
    (∀ t : Tree, freeRBST t = cnt t) ∧
    freeRBST initRBST = 0 := by
  have hc : ∀ (coin : Nat → Bool) (pick : Nat → Nat) (ks : List Int),
      cnt (insertList coin pick ks).1 = ks.length := by
    intro coin pick ks
    obtain ⟨h1, h2, h3⟩ := insertList_facts coin pick ks
    have := h2.length_eq
    rw [length_inorder] at this
    exact this
  exact ⟨fun coin pick ks => ⟨hc coin pick ks, by rw [freeRBST_cnt, hc]⟩,
    freeRBST_cnt, rfl⟩

/-- C7 counterexample: an insert into an empty tree descends through no
nodes and rebuilds nothing (empty ghost path, no rebuild recorded), yet
`insertRBST` returns 1, not 0 — `nodesVisited` is incremented once for the
`createNode` call itself.  So the claimed "counter = number of nodes
descended through or rebuilt" fails at the empty tree. -/
theorem c7_counterexample :
    (insertRBST (fun _ => false) (fun _ => 0) Tree.nil 42 0 0).2.path = [] ∧
    (insertRBST (fun _ => false) (fun _ => 0) Tree.nil 42 0 0).2.rebuiltSize = none ∧
    (insertRBST (fun _ => false) (fun _ => 0) Tree.nil 42 0 0).2.nodesVisited ≠ 0 := by
  refine ⟨rfl, rfl, ?_⟩
  decide

/-- C7 amended: every insert call on a tree with correct size fields
returns 1 (counting the Node created for the new key) plus the number of
existing nodes descended through (the ghost `path`, which includes the
node at which a rebuild triggers), plus — when a rebuild of a subtree
with size field `s` is triggered — `2*s + 1` more (each of the `s`
existing nodes counted once while flattening plus the `s + 1` nodes
created while rebuilding).  In particular an insert into an empty tree
returns exactly 1, although no nodes are descended through or rebuilt. -/
theorem c7_visited_accounting (coin : Nat → Bool) (pick : Nat → Nat) (root : Tree)
    (k : Int) (dc rc : Nat) (h : sizeOk root = true) :
    (insertRBST coin pick root k dc rc).2.nodesVisited =
      1 + (insertRBST coin pick root k dc rc).2.path.length +
        (match (insertRBST coin pick root k dc rc).2.rebuiltSize with
         | none => 0
         | some s => 2 * s + 1) :=
  insertRBST_visited coin pick root k dc rc h

theorem c7_visited_accounting_witness :
    sizeOk (Tree.node 5 1 .nil .nil) = true ∧
    (insertRBST (fun _ => true) (fun _ => 0)
        (Tree.node 5 1 .nil .nil) 7 0 0).2.nodesVisited =
      1 + (insertRBST (fun _ => true) (fun _ => 0)
        (Tree.node 5 1 .nil .nil) 7 0 0).2.path.length +
        (match (insertRBST (fun _ => true) (fun _ => 0)
            (Tree.node 5 1 .nil .nil) 7 0 0).2.rebuiltSize with
         | none => 0
         | some s => 2 * s + 1) :=
  ⟨by decide,
   c7_visited_accounting (fun _ => true) (fun _ => 0) (Tree.node 5 1 .nil .nil) 7 0 0
     (by decide)⟩

/-- C10: during a Linearize+Rebuild on a subtree `t` with correct size
fields (`s := sizeField t`), performed exactly as `reconstructRBST`
performs it: the flatten phase writes each of the array cells
`0, 1, ..., s` exactly once, in that order (write log = `range (s+1)`),
and only then does the rebuild phase read; the recorded index of the new
key is always assigned and lies in `[0, s]`; and every index the rebuild
phase reads lies in `[0, s]`. -/
theorem c10_array_safety (pick : Nat → Nat) (t : Tree) (k : Int) (v rc : Nat)
    (h : sizeOk t = true) :
    (flattenRBST k t (sizeField t + 1)
        { arr := List.replicate (sizeField t + 1) 0, curIndex := 0,
          newNodeIndex := none, isAdded := false, nodesVisited := v,
          writes := [] }).writes = List.range (sizeField t + 1) ∧
    (flattenRBST k t (sizeField t + 1)
        { arr := List.replicate (sizeField t + 1) 0, curIndex := 0,
          newNodeIndex := none, isAdded := false, nodesVisited := v,
          writes := [] }).newNodeIndex =
      some ((inorder t).takeWhile (fun z => decide (z ≤ k))).length ∧
    ((inorder t).takeWhile (fun z => decide (z ≤ k))).length ≤ sizeField t ∧
    (∀ j ∈ (makeRBSTRoot pick
        (flattenRBST k t (sizeField t + 1)
          { arr := List.replicate (sizeField t + 1) 0, curIndex := 0,
            newNodeIndex := none, isAdded := false, nodesVisited := v,
            writes := [] }).arr
        0 (((sizeField t + 1 : Nat) : Int) - 1)
        (((flattenRBST k t (sizeField t + 1)
          { arr := List.replicate (sizeField t + 1) 0, curIndex := 0,
            newNodeIndex := none, isAdded := false, nodesVisited := v,
            writes := [] }).newNodeIndex.getD 0 : Nat) : Int)
        { rc := rc, nodesVisited := (flattenRBST k t (sizeField t + 1)
            { arr := List.replicate (sizeField t + 1) 0, curIndex := 0,
              newNodeIndex := none, isAdded := false, nodesVisited := v,
              writes := [] }).nodesVisited, reads := [] }).2.reads,
      0 ≤ j ∧ j ≤ (sizeField t : Int)) := by
  have hsf : sizeField t = cnt t := sizeField_eq_cnt h
  have htw := takeWhile_length_add_dropWhile_length (fun z => decide (z ≤ k)) (inorder t)
  have hlen := length_inorder t
  rw [flattenRBST_top k t v (sizeField t + 1) (by omega)]
  refine ⟨rfl, rfl, by omega, ?_⟩
  simp only [Option.getD_some]
  obtain ⟨he, hroot, hs2, hk2, hc2, hv2, hreads⟩ := makeRBSTRoot_spec pick
    ((inorder t).takeWhile (fun z => decide (z ≤ k)) ++
      k :: (inorder t).dropWhile (fun z => decide (z ≤ k)))
    0 (((sizeField t + 1 : Nat) : Int) - 1)
    (((inorder t).takeWhile (fun z => decide (z ≤ k))).length : Int)
    { rc := rc, nodesVisited := v + cnt t, reads := [] }
    (by positivity) (by push_cast; omega)
  intro j hj
  rcases hreads j hj with hj' | hj'
  · simp at hj'
  · push_cast at hj'
    constructor <;> omega

theorem c10_array_safety_witness :
    sizeOk (Tree.node 5 1 .nil .nil) = true ∧
    (flattenRBST 3 (Tree.node 5 1 .nil .nil)
        (sizeField (Tree.node 5 1 .nil .nil) + 1)
        { arr := List.replicate (sizeField (Tree.node 5 1 .nil .nil) + 1) 0,
          curIndex := 0, newNodeIndex := none, isAdded := false,
          nodesVisited := 0, writes := [] }).writes =
      List.range (sizeField (Tree.node 5 1 .nil .nil) + 1) :=
  ⟨by decide,
   (c10_array_safety (fun _ => 0) (Tree.node 5 1 .nil .nil) 3 0 0 (by decide)).1⟩
end RBST
